import Mathlib

/-!
Verification of the team27 competitive-sudoku agents (groups A2/A3 and the
Monte-Carlo variant).  The Python sources under `team27_A2`, `team27_A3` and
`team27_A3_monte_carlo` are shallowly embedded below: boards become total
functions from coordinates to `Nat` (with `0` encoding the external board's
empty marker), Python dictionaries over cell coordinates become a key list
(preserving insertion/iteration order) together with a value function, and
in-place mutation becomes explicit state threading through folds.
-/

namespace Sudoku

/-- Embedding of the external `SudokuBoard` collaborator: `m`/`n` are the block
dimensions, `N = m*n`, and `cells i j` returns the digit at `(i, j)` with `0`
playing the role of `SudokuBoard.empty`. -/
structure Board where
  m : Nat
  n : Nat
  cells : Nat → Nat → Nat

def Board.N (b : Board) : Nat := b.m * b.n

/-- `Board.get(i, j)` of the external collaborator. -/
def Board.get (b : Board) (i j : Nat) : Nat := b.cells i j

/-- `Board.put(i, j, value)` of the external collaborator (copy-on-write). -/
def Board.put (b : Board) (i j v : Nat) : Board :=
  ⟨b.m, b.n, fun i' j' => if i' = i ∧ j' = j then v else b.cells i' j'⟩

/-- Embedding of `competitive_sudoku.sudoku.Move` (also used for `TabooMove`,
which carries exactly the same `(i, j, value)` fields). -/
structure Move where
  i : Nat
  j : Nat
  value : Nat
deriving DecidableEq, Repr, Inhabited

/-- Embedding of the referee's `GameState`: board snapshot, move history,
score pair `(scores[0], scores[1])` and the referee-reported taboo moves. -/
structure GameState where
  board : Board
  moves : List Move
  scores : Int × Int
  taboo_moves : List Move

/-- `game_helpers.get_block_top_left_coordinates`. -/
def get_block_top_left_coordinates (row_index column_index m n : Nat) : Nat × Nat :=
  (row_index - (row_index % m), column_index - (column_index % n))

/-- `game_helpers.board_filled_in`: no empty cell on the board. -/
def board_filled_in (gs : GameState) : Bool :=
  (List.range gs.board.N).all fun i =>
    (List.range gs.board.N).all fun j => gs.board.get i j ≠ 0

/-- `game_helpers.board_half_filled_in`: the fraction of filled cells is
`≥ 0.5`; the float comparison `filled / total >= 0.5` is exact and equivalent
to `2 * filled ≥ total`. -/
def board_half_filled_in (gs : GameState) : Bool :=
  let cells_filled_in :=
    ((List.range gs.board.N).map fun i =>
      ((List.range gs.board.N).filter fun j => gs.board.get i j ≠ 0).length).sum
  2 * cells_filled_in ≥ gs.board.N * gs.board.N

/-- `game_helpers.even_number_of_squares_left`. -/
def even_number_of_squares_left (gs : GameState) : Bool :=
  let empty_squares :=
    ((List.range gs.board.N).map fun i =>
      ((List.range gs.board.N).filter fun j => gs.board.get i j = 0).length).sum
  empty_squares % 2 = 0

/-- The set of digits recorded against row `i` by the first scan of
`game_helpers.compute_all_legal_moves` (the `in_row` sets): every non-empty
cell value of row `i`. -/
def in_row (gs : GameState) (i : Nat) : List Nat :=
  (List.range gs.board.N).filterMap fun j =>
    let cell := gs.board.get i j
    if cell ≠ 0 then some cell else none

/-- The `in_column` sets of `compute_all_legal_moves`. -/
def in_column (gs : GameState) (j : Nat) : List Nat :=
  (List.range gs.board.N).filterMap fun i =>
    let cell := gs.board.get i j
    if cell ≠ 0 then some cell else none

/-- The `in_block` sets of `compute_all_legal_moves`, keyed by the top-left
coordinates of a block: every non-empty cell value whose cell lies in the
block with that top-left corner. -/
def in_block (gs : GameState) (p : Nat × Nat) : List Nat :=
  ((List.range gs.board.N).flatMap fun i =>
    (List.range gs.board.N).filterMap fun j =>
      let cell := gs.board.get i j
      if cell ≠ 0 ∧ get_block_top_left_coordinates i j gs.board.m gs.board.n = p then
        some cell
      else none)

/-- `not_in_row` of `compute_all_legal_moves`: `{1..N}` minus `in_row`. -/
def not_in_row (gs : GameState) (i : Nat) : List Nat :=
  (List.range' 1 gs.board.N).filter fun v => v ∉ in_row gs i

/-- `not_in_column` of `compute_all_legal_moves`. -/
def not_in_column (gs : GameState) (j : Nat) : List Nat :=
  (List.range' 1 gs.board.N).filter fun v => v ∉ in_column gs j

/-- `not_in_block` of `compute_all_legal_moves`. -/
def not_in_block (gs : GameState) (p : Nat × Nat) : List Nat :=
  (List.range' 1 gs.board.N).filter fun v => v ∉ in_block gs p

/-- A Python dict from cell coordinates to candidate-value lists, as threaded
through the passes: the iteration-ordered key list plus the value function.
A lookup succeeds exactly on the keys. -/
structure CandMap where
  keys : List (Nat × Nat)
  val : Nat × Nat → List Nat

/-- Dictionary lookup: `legal_moves[c]` guarded by `c in legal_moves`. -/
def CandMap.lookup (m : CandMap) (c : Nat × Nat) : Option (List Nat) :=
  if c ∈ m.keys then some (m.val c) else none

/-- Lookup with `[]` for missing keys (mirrors the `defaultdict` view used by
membership reasoning; a missing cell has no candidates). -/
def CandMap.lookupD (m : CandMap) (c : Nat × Nat) : List Nat :=
  if c ∈ m.keys then m.val c else []

/-- Overwrite the value stored at key `c` (the keys are unchanged, matching
the passes, which never add or remove dictionary keys). -/
def CandMap.setVal (m : CandMap) (c : Nat × Nat) (l : List Nat) : CandMap :=
  ⟨m.keys, fun c' => if c' = c then l else m.val c'⟩

/-- `legal_moves[c].remove(v)`: erase the first occurrence of `v` at key `c`. -/
def CandMap.eraseVal (m : CandMap) (c : Nat × Nat) (v : Nat) : CandMap :=
  m.setVal c ((m.val c).erase v)

/-- The empty cells of the board in the row-major order in which
`compute_all_legal_moves` inserts them into `allowed_in_cell`. -/
def empty_cells (gs : GameState) : List (Nat × Nat) :=
  (List.range gs.board.N).flatMap fun i =>
    (List.range gs.board.N).filterMap fun j =>
      if gs.board.get i j = 0 then some (i, j) else none

/-- The row ∩ column ∩ block intersection assigned to an empty cell by
`compute_all_legal_moves` before taboo removal. -/
def intersect_allowed (gs : GameState) (i j : Nat) : List Nat :=
  (not_in_row gs i).filter fun v =>
    v ∈ not_in_column gs j ∧
    v ∈ not_in_block gs (get_block_top_left_coordinates i j gs.board.m gs.board.n)

/-- The final taboo-removal loop of `compute_all_legal_moves`: for every
`taboo_move` whose coordinates key an (empty-cell) entry, remove its value
from that entry when present.  Restricted to a single cell this is a fold
over the taboo list. -/
def apply_taboos (taboos : List Move) (i j : Nat) (l : List Nat) : List Nat :=
  taboos.foldl
    (fun acc t => if t.i = i ∧ t.j = j ∧ t.value ∈ acc then acc.erase t.value else acc) l

/-- `game_helpers.compute_all_legal_moves` (A3 version), restricted to its
first component `allowed_in_cell`: the candidate move map keyed by the empty
cells, each carrying the row/column/block intersection minus the reported
taboo values.  (The other three returned components are `not_in_row`,
`not_in_column` and `not_in_block` above.) -/
def compute_all_legal_moves (gs : GameState) : CandMap :=
  ⟨empty_cells gs, fun c => apply_taboos gs.taboo_moves c.1 c.2 (intersect_allowed gs c.1 c.2)⟩

/-- `game_helpers.allowed_numbers_in_block`: all digits `1..N` not yet present
in the block containing cell `(row, column)`. -/
def allowed_numbers_in_block (gs : GameState) (row column : Nat) : List Nat :=
  let block_start_row := row - (row % gs.board.m)
  let block_end_row := row + (gs.board.m - (row % gs.board.m))
  let block_start_column := column - (column % gs.board.n)
  let block_end_column := column + (gs.board.n - (column % gs.board.n))
  let numbers_in_block :=
    (List.range' block_start_row (block_end_row - block_start_row)).flatMap fun i =>
      (List.range' block_start_column (block_end_column - block_start_column)).filterMap
        fun j =>
          let v := gs.board.get i j
          if v ≠ 0 then some v else none
  (List.range' 1 gs.board.N).filter fun v => v ∉ numbers_in_block

/-- `game_helpers.allowed_numbers_in_row`. -/
def allowed_numbers_in_row (gs : GameState) (row : Nat) : List Nat :=
  let numbers_in_row :=
    (List.range gs.board.N).filterMap fun j =>
      let v := gs.board.get row j
      if v ≠ 0 then some v else none
  (List.range' 1 gs.board.N).filter fun v => v ∉ numbers_in_row

/-- `game_helpers.allowed_numbers_in_column`. -/
def allowed_numbers_in_column (gs : GameState) (column : Nat) : List Nat :=
  let numbers_in_column :=
    (List.range gs.board.N).filterMap fun i =>
      let v := gs.board.get i column
      if v ≠ 0 then some v else none
  (List.range' 1 gs.board.N).filter fun v => v ∉ numbers_in_column

/-- `game_helpers.simulate_move` (A3 version, with the `taboo_move` flag).
The deep copy of Python becomes value passing; a taboo move only extends the
history, a regular move is put on the board, appended to the history, and
scored by counting the completed regions among the affected row, column and
block via the `{0:0, 1:1, 2:3, 3:7}` table, credited to the player deduced
from the parity of the history length before the append. -/
def simulate_move (gs : GameState) (mv : Move) (taboo_move : Bool) : GameState :=
  let simulating_for := gs.moves.length % 2
  if taboo_move then
    { gs with moves := gs.moves ++ [mv] }
  else
    let future_state : GameState :=
      { gs with
        board := gs.board.put mv.i mv.j mv.value
        moves := gs.moves ++ [mv] }
    let block_values_left := (allowed_numbers_in_block future_state mv.i mv.j).length
    let row_values_left := (allowed_numbers_in_row future_state mv.i).length
    let col_values_left := (allowed_numbers_in_column future_state mv.j).length
    let regions_completed :=
      (if block_values_left = 0 then 1 else 0) +
      (if row_values_left = 0 then 1 else 0) +
      (if col_values_left = 0 then 1 else 0)
    let score : Int :=
      if regions_completed = 1 then 1
      else if regions_completed = 2 then 3
      else if regions_completed = 3 then 7
      else 0
    if simulating_for = 0 then
      { future_state with scores := (future_state.scores.1 + score, future_state.scores.2) }
    else
      { future_state with scores := (future_state.scores.1, future_state.scores.2 + score) }

end Sudoku

namespace Sudoku

/-! ### Candidate-map correctness (claim C1) -/

lemma mem_in_row {gs : GameState} {i v : Nat} :
    v ∈ in_row gs i ↔ ∃ j' < gs.board.N, gs.board.get i j' = v ∧ v ≠ 0 := by
  simp only [in_row, List.mem_filterMap, List.mem_range]
  constructor
  · rintro ⟨j', hj', h⟩
    by_cases hc : gs.board.get i j' ≠ 0 <;> simp [hc] at h
    exact ⟨j', hj', h, h ▸ hc⟩
  · rintro ⟨j', hj', rfl, hv⟩
    exact ⟨j', hj', by simp [hv]⟩

lemma mem_in_column {gs : GameState} {j v : Nat} :
    v ∈ in_column gs j ↔ ∃ i' < gs.board.N, gs.board.get i' j = v ∧ v ≠ 0 := by
  simp only [in_column, List.mem_filterMap, List.mem_range]
  constructor
  · rintro ⟨i', hi', h⟩
    by_cases hc : gs.board.get i' j ≠ 0 <;> simp [hc] at h
    exact ⟨i', hi', h, h ▸ hc⟩
  · rintro ⟨i', hi', rfl, hv⟩
    exact ⟨i', hi', by simp [hv]⟩

lemma mem_in_block {gs : GameState} {p : Nat × Nat} {v : Nat} :
    v ∈ in_block gs p ↔
      ∃ i' < gs.board.N, ∃ j' < gs.board.N,
        gs.board.get i' j' = v ∧ v ≠ 0 ∧
        get_block_top_left_coordinates i' j' gs.board.m gs.board.n = p := by
  simp only [in_block, List.mem_flatMap, List.mem_filterMap, List.mem_range]
  constructor
  · rintro ⟨i', hi', j', hj', h⟩
    by_cases hc : gs.board.get i' j' ≠ 0 ∧
        get_block_top_left_coordinates i' j' gs.board.m gs.board.n = p <;> simp [hc] at h
    exact ⟨i', hi', j', hj', h, h ▸ hc.1, hc.2⟩
  · rintro ⟨i', hi', j', hj', rfl, hv, hp⟩
    exact ⟨i', hi', j', hj', by simp [hv, hp]⟩

lemma nodup_not_in_row (gs : GameState) (i : Nat) : (not_in_row gs i).Nodup :=
  (List.nodup_range' 1 gs.board.N).filter _

lemma nodup_intersect_allowed (gs : GameState) (i j : Nat) :
    (intersect_allowed gs i j).Nodup :=
  (nodup_not_in_row gs i).filter _

lemma apply_taboos_sub {ts : List Move} {i j : Nat} {l : List Nat} {v : Nat} :
    v ∈ apply_taboos ts i j l → v ∈ l := by
  induction ts generalizing l with
  | nil => exact fun h => h
  | cons t ts ih =>
    intro h
    rw [apply_taboos, List.foldl_cons] at h
    have h' := ih (l := if t.i = i ∧ t.j = j ∧ t.value ∈ l then l.erase t.value else l) h
    split at h'
    · exact (List.erase_subset _ _) h'
    · exact h'

lemma apply_taboos_nodup {ts : List Move} {i j : Nat} {l : List Nat} (hl : l.Nodup) :
    (apply_taboos ts i j l).Nodup := by
  induction ts generalizing l with
  | nil => exact hl
  | cons t ts ih =>
    rw [apply_taboos, List.foldl_cons]
    refine ih ?_
    split
    · exact hl.erase _
    · exact hl

lemma apply_taboos_cons (t : Move) (ts : List Move) (i j : Nat) (l : List Nat) :
    apply_taboos (t :: ts) i j l =
      apply_taboos ts i j
        (if t.i = i ∧ t.j = j ∧ t.value ∈ l then l.erase t.value else l) := rfl

lemma mem_apply_taboos {ts : List Move} {i j : Nat} {l : List Nat} (hl : l.Nodup) {v : Nat} :
    v ∈ apply_taboos ts i j l ↔
      v ∈ l ∧ ∀ t ∈ ts, ¬(t.i = i ∧ t.j = j ∧ t.value = v) := by
  induction ts generalizing l with
  | nil => simp [apply_taboos]
  | cons t ts ih =>
    rw [apply_taboos_cons]
    by_cases hc : t.i = i ∧ t.j = j ∧ t.value ∈ l
    · rw [if_pos hc, ih (hl.erase _), hl.mem_erase_iff]
      constructor
      · rintro ⟨⟨hne, hv⟩, hrest⟩
        refine ⟨hv, fun t' ht' => ?_⟩
        rcases List.mem_cons.mp ht' with rfl | h
        · rintro ⟨_, _, hval⟩
          exact hne (hval ▸ rfl)
        · exact hrest t' h
      · rintro ⟨hv, hall⟩
        refine ⟨⟨?_, hv⟩, fun t' ht' => hall t' (List.mem_cons_of_mem _ ht')⟩
        intro hvt
        exact hall t (List.mem_cons_self _ _) ⟨hc.1, hc.2.1, hvt ▸ rfl⟩
    · rw [if_neg hc, ih hl]
      constructor
      · rintro ⟨hv, hrest⟩
        refine ⟨hv, fun t' ht' => ?_⟩
        rcases List.mem_cons.mp ht' with rfl | h
        · rintro ⟨h1, h2, h3⟩
          exact hc ⟨h1, h2, h3 ▸ hv⟩
        · exact hrest t' h
      · rintro ⟨hv, hall⟩
        exact ⟨hv, fun t' ht' => hall t' (List.mem_cons_of_mem _ ht')⟩

lemma mem_empty_cells {gs : GameState} {i j : Nat} :
    (i, j) ∈ empty_cells gs ↔ i < gs.board.N ∧ j < gs.board.N ∧ gs.board.get i j = 0 := by
  simp only [empty_cells, List.mem_flatMap, List.mem_filterMap, List.mem_range]
  constructor
  · rintro ⟨i', hi', j', hj', h⟩
    by_cases hc : gs.board.get i' j' = 0 <;> simp [hc] at h
    obtain ⟨rfl, rfl⟩ := h
    exact ⟨hi', hj', hc⟩
  · rintro ⟨hi, hj, h0⟩
    exact ⟨i, hi, j, hj, by simp [h0]⟩

/-- For `0 < m`, two row indices share a block row band exactly when the second
lies in the `m`-row interval starting at the first one's band start. -/
lemma block_band_iff {m : Nat} (hm : 0 < m) (i i' : Nat) :
    i' - i' % m = i - i % m ↔ (i - i % m ≤ i' ∧ i' < i - i % m + m) := by
  constructor
  · intro h
    have h4 := Nat.mod_le i' m
    have h5 := Nat.mod_lt i' hm
    have h6 := Nat.mod_le i m
    omega
  · rintro ⟨hlo, hhi⟩
    have hdvd : i - i % m = m * (i / m) := by
      have := Nat.div_add_mod i m
      omega
    have h6 := Nat.mod_le i m
    have hr : i' = m * (i / m) + (i' - (i - i % m)) := by omega
    have hrlt : i' - (i - i % m) < m := by omega
    have hmod : i' % m = i' - (i - i % m) := by
      conv_lhs => rw [hr]
      rw [Nat.mul_add_mod]
      exact Nat.mod_eq_of_lt hrlt
    omega

end Sudoku

namespace Sudoku

/-- The block band of `i` fits inside the board when `i < N`. -/
lemma band_le_N {m n i : Nat} (_hm : 0 < m) (hi : i < m * n) :
    i - i % m + m ≤ m * n := by
  have hdvd : i - i % m = m * (i / m) := by
    have := Nat.div_add_mod i m
    omega
  have hq : i / m < n := by
    by_contra hq
    push_neg at hq
    have h1 : m * n ≤ m * (i / m) := Nat.mul_le_mul_left m hq
    omega
  have h2 : m * (i / m + 1) ≤ m * n := Nat.mul_le_mul_left m hq
  have h3 : m * (i / m + 1) = m * (i / m) + m := Nat.mul_succ m (i / m)
  omega

/-- Claim C1: for every game state, the candidate move map returned by
`compute_all_legal_moves` assigns each empty cell exactly the digits of
`{1..N}` that occur nowhere in that cell's row, column and block, minus every
value named by a reported taboo move at that cell's coordinates; filled cells
get no entry. -/
theorem compute_all_legal_moves_candidates (gs : GameState)
    (hm : 0 < gs.board.m) (hn : 0 < gs.board.n)
    (i j : Nat) (hi : i < gs.board.N) (hj : j < gs.board.N) :
    (gs.board.get i j ≠ 0 → (compute_all_legal_moves gs).lookup (i, j) = none) ∧
    (gs.board.get i j = 0 →
      ∃ l, (compute_all_legal_moves gs).lookup (i, j) = some l ∧
        ∀ v, v ∈ l ↔
          1 ≤ v ∧ v ≤ gs.board.N ∧
          (∀ j' < gs.board.N, gs.board.get i j' ≠ v) ∧
          (∀ i' < gs.board.N, gs.board.get i' j ≠ v) ∧
          (∀ i' j', i - i % gs.board.m ≤ i' → i' < i - i % gs.board.m + gs.board.m →
            j - j % gs.board.n ≤ j' → j' < j - j % gs.board.n + gs.board.n →
            gs.board.get i' j' ≠ v) ∧
          (∀ t ∈ gs.taboo_moves, ¬(t.i = i ∧ t.j = j ∧ t.value = v))) := by
  have hN : gs.board.N = gs.board.m * gs.board.n := rfl
  constructor
  · intro hfill
    have hnk : (i, j) ∉ (compute_all_legal_moves gs).keys := by
      intro hmem
      exact hfill (mem_empty_cells.mp hmem).2.2
    simp [CandMap.lookup, hnk]
  · intro hempty
    have hk : (i, j) ∈ (compute_all_legal_moves gs).keys :=
      mem_empty_cells.mpr ⟨hi, hj, hempty⟩
    refine ⟨(compute_all_legal_moves gs).val (i, j), by simp [CandMap.lookup, hk], ?_⟩
    intro v
    show v ∈ apply_taboos gs.taboo_moves i j (intersect_allowed gs i j) ↔ _
    rw [mem_apply_taboos (nodup_intersect_allowed gs i j)]
    have hmemint : v ∈ intersect_allowed gs i j ↔
        (v ∈ not_in_row gs i ∧ v ∈ not_in_column gs j ∧
         v ∈ not_in_block gs (get_block_top_left_coordinates i j gs.board.m gs.board.n)) := by
      simp [intersect_allowed, List.mem_filter, and_assoc]
    rw [hmemint]
    simp only [not_in_row, not_in_column, not_in_block, List.mem_filter,
      List.mem_range'_1, decide_eq_true_eq]
    constructor
    · rintro ⟨⟨⟨⟨hv1, hvN⟩, hnr⟩, ⟨_, hnc⟩, ⟨_, hnb⟩⟩, htab⟩
      have hv0 : v ≠ 0 := by omega
      refine ⟨hv1, by omega, ?_, ?_, ?_, htab⟩
      · intro j' hj' hget
        exact hnr (mem_in_row.mpr ⟨j', hj', hget, hv0⟩)
      · intro i' hi' hget
        exact hnc (mem_in_column.mpr ⟨i', hi', hget, hv0⟩)
      · intro i' j' hlo1 hhi1 hlo2 hhi2 hget
        have hi'N : i' < gs.board.N := by
          have := band_le_N hm (hN ▸ hi)
          omega
        have hj'N : j' < gs.board.N := by
          have h1 : gs.board.N = gs.board.n * gs.board.m := by rw [hN]; ring
          have := band_le_N hn (h1 ▸ hj)
          omega
        refine hnb (mem_in_block.mpr ⟨i', hi'N, j', hj'N, hget, hv0, ?_⟩)
        have hb1 : i' - i' % gs.board.m = i - i % gs.board.m :=
          (block_band_iff hm i i').mpr ⟨hlo1, hhi1⟩
        have hb2 : j' - j' % gs.board.n = j - j % gs.board.n :=
          (block_band_iff hn j j').mpr ⟨hlo2, hhi2⟩
        simp [get_block_top_left_coordinates, hb1, hb2]
    · rintro ⟨hv1, hvN, hrow, hcol, hblk, htab⟩
      refine ⟨⟨⟨⟨hv1, by omega⟩, ?_⟩, ⟨⟨hv1, by omega⟩, ?_⟩, ⟨⟨hv1, by omega⟩, ?_⟩⟩, htab⟩
      · intro hmem
        obtain ⟨j', hj', hget, _⟩ := mem_in_row.mp hmem
        exact hrow j' hj' hget
      · intro hmem
        obtain ⟨i', hi', hget, _⟩ := mem_in_column.mp hmem
        exact hcol i' hi' hget
      · intro hmem
        obtain ⟨i', hi', j', hj', hget, hv0, hTL⟩ := mem_in_block.mp hmem
        have hb1 : i' - i' % gs.board.m = i - i % gs.board.m := by
          have := congrArg Prod.fst hTL
          simpa [get_block_top_left_coordinates] using this
        have hb2 : j' - j' % gs.board.n = j - j % gs.board.n := by
          have := congrArg Prod.snd hTL
          simpa [get_block_top_left_coordinates] using this
        obtain ⟨hlo1, hhi1⟩ := (block_band_iff hm i i').mp hb1
        obtain ⟨hlo2, hhi2⟩ := (block_band_iff hn j j').mp hb2
        exact hblk i' j' hlo1 hhi1 hlo2 hhi2 hget

end Sudoku

namespace Sudoku

/-- A concrete 4x4 game state (2x2 blocks): a `1` at `(0, 0)`, a reported
taboo move `(0, 1, 3)`, everything else empty. -/
def c1Board : Board := ⟨2, 2, fun i j => if i = 0 ∧ j = 0 then 1 else 0⟩

def c1GS : GameState := ⟨c1Board, [], (0, 0), [⟨0, 1, 3⟩]⟩

/-- Witness for `compute_all_legal_moves_candidates` at the empty cell
`(0, 1)` of the concrete state `c1GS`. -/
theorem compute_all_legal_moves_candidates_witness :
    c1GS.board.get 0 1 = 0 ∧
    (∃ l, (compute_all_legal_moves c1GS).lookup (0, 1) = some l ∧
      ∀ v, v ∈ l ↔
        1 ≤ v ∧ v ≤ c1GS.board.N ∧
        (∀ j' < c1GS.board.N, c1GS.board.get 0 j' ≠ v) ∧
        (∀ i' < c1GS.board.N, c1GS.board.get i' 1 ≠ v) ∧
        (∀ i' j', 0 - 0 % c1GS.board.m ≤ i' → i' < 0 - 0 % c1GS.board.m + c1GS.board.m →
          1 - 1 % c1GS.board.n ≤ j' → j' < 1 - 1 % c1GS.board.n + c1GS.board.n →
          c1GS.board.get i' j' ≠ v) ∧
        (∀ t ∈ c1GS.taboo_moves, ¬(t.i = 0 ∧ t.j = 1 ∧ t.value = v))) :=
  ⟨by decide,
    (compute_all_legal_moves_candidates c1GS (by decide) (by decide) 0 1
      (by decide) (by decide)).2 (by decide)⟩

/-! ### The taboo-inference passes of `team27_A2.helpers.taboo_move_calculation` -/

/-- One conditional removal `if c in legal_moves and v in legal_moves[c]:
legal_moves[c].remove(v)` as it appears throughout the passes. -/
def guarded_erase (lm : CandMap) (c : Nat × Nat) (v : Nat) : CandMap :=
  if c ∈ lm.keys ∧ v ∈ lm.val c then lm.eraseVal c v else lm

/-- The peer-elimination loop body of `obvious_singles` for a cell
`(row, col)` holding the single candidate `value`: for every `i < N` remove
`value` from `(i, col)`, from `(row, i)` and from the `i`-th cell of the
block (indexed by `i // m` and `i % n` exactly as in the source), skipping
the cell itself each time. -/
def obvious_singles_inner (gs : GameState) (row col value : Nat) (lm : CandMap) : CandMap :=
  let fb := get_block_top_left_coordinates row col gs.board.m gs.board.n
  (List.range gs.board.N).foldl
    (fun lm0 i =>
      let lm1 := if i ≠ row then guarded_erase lm0 (i, col) value else lm0
      let lm2 := if i ≠ col then guarded_erase lm1 (row, i) value else lm1
      let bcr := fb.1 + i / gs.board.m
      let bcc := fb.2 + i % gs.board.n
      if ¬(bcr = row ∧ bcc = col) then guarded_erase lm2 (bcr, bcc) value else lm2)
    lm

/-- `taboo_move_calculation.obvious_singles` (A2 file as present in the
repository): iterate over the dictionary keys (key set never changes; value
mutations made for earlier keys are visible for later ones) and, whenever a
cell currently holds exactly one candidate, erase that value from all its
peers.  The function narrows `legal_moves` in place and returns `None`;
the returned map below is the final mutated state.  Note that, contrary to
its own docstring, it accumulates no taboo move output whatsoever. -/
def obvious_singles (gs : GameState) (lm : CandMap) : CandMap :=
  lm.keys.foldl
    (fun lm0 cell =>
      match lm0.val cell with
      | [value] => obvious_singles_inner gs cell.1 cell.2 value lm0
      | _ => lm0)
    lm

/-- The game state for the claim-C3 evaluation: an empty 4x4 board with 2x2
blocks (the pass only reads the dimensions). -/
def c3GS : GameState := ⟨⟨2, 2, fun _ _ => 0⟩, [], (0, 0), []⟩

/-- A candidate map in which `(0, 0)` holds the single candidate `1` and its
row peer `(0, 1)` holds only the candidate `1` as well. -/
def c3LM : CandMap :=
  ⟨[(0, 0), (0, 1)], fun c => if c = (0, 0) then [1] else if c = (0, 1) then [1] else []⟩

/-- Claim C3 evaluation: on `c3LM` the obvious-singles elimination removes
the final candidate `1` from cell `(0, 1)`, leaving its candidate set empty,
yet the pass (as implemented in the A2 helper file) returns only the narrowed
map — there is no taboo output set into which the emptied pair
`((0, 1), 1)` could be accumulated. -/
theorem obvious_singles_empties_cell_without_taboo_output :
    c3LM.lookup (0, 1) = some [1] ∧
    (obvious_singles c3GS c3LM).lookup (0, 1) = some [] := by
  constructor
  · decide
  · decide

end Sudoku

namespace Sudoku

/-- The mutable state of `hidden_singles`: the candidate map together with
the three `non_singles` bookkeeping tables (values already known to be legal
in more than one cell of a row / column / block). -/
structure HSState where
  lm : CandMap
  nsRow : Nat → List Nat
  nsCol : Nat → List Nat
  nsBlock : Nat → Nat → List Nat

/-- The flag state threaded through the `for i in range(N)` scan of
`hidden_singles`: the three `potential_single_in_*` flags plus the
bookkeeping tables being appended to. -/
structure HSScan where
  psr : Bool
  psc : Bool
  psb : Bool
  nsRow : Nat → List Nat
  nsCol : Nat → List Nat
  nsBlock : Nat → Nat → List Nat

/-- One step of the `for i in range(N)` scan of `hidden_singles` for the
value `pv` in cell `(cell_row, cell_column)`: each of the three counters is
invalidated (and the corresponding `non_singles` table extended) once a
second cell of the row / column / block admitting `pv` is seen.  The early
`break` once all three flags are false is a no-op for the remaining
iterations (every action below is guarded by a flag), so it is dropped. -/
def hs_scan_step (gs : GameState) (lm : CandMap) (cell_row cell_column : Nat) (pv : Nat)
    (st : HSScan) (i : Nat) : HSScan :=
  let fb := get_block_top_left_coordinates cell_row cell_column gs.board.m gs.board.n
  let cbcr := fb.1 + i / gs.board.n
  let cbcc := fb.2 + i % gs.board.n
  let st1 :=
    if st.psr ∧ cell_column ≠ i ∧ (cell_row, i) ∈ lm.keys ∧ pv ∈ lm.val (cell_row, i) then
      { st with psr := false, nsRow := fun r => if r = cell_row then st.nsRow r ++ [pv] else st.nsRow r }
    else st
  let st2 :=
    if st1.psc ∧ cell_row ≠ i ∧ (i, cell_column) ∈ lm.keys ∧ pv ∈ lm.val (i, cell_column) then
      { st1 with psc := false, nsCol := fun c => if c = cell_column then st1.nsCol c ++ [pv] else st1.nsCol c }
    else st1
  if st2.psb ∧ ¬(cbcr = cell_row ∧ cbcc = cell_column) ∧
      (cbcr, cbcc) ∈ lm.keys ∧ pv ∈ lm.val (cbcr, cbcc) then
    { st2 with
      psb := false
      nsBlock := fun br bc =>
        if br = cbcr / gs.board.m ∧ bc = cbcc / gs.board.n then st2.nsBlock br bc ++ [pv]
        else st2.nsBlock br bc }
  else st2

/-- The body of `for possible_value in legal_moves[possible_single_cell]` in
`hidden_singles`: initialise the three flags from the bookkeeping tables,
`continue` when all are already false, otherwise run the scan over
`range(N)` and, when some flag survived, collapse the cell's candidate list
to `[pv]`. -/
def hs_value_step (gs : GameState) (cell : Nat × Nat) (s : HSState) (pv : Nat) : HSState :=
  let cell_row := cell.1
  let cell_column := cell.2
  let cbr := cell_row / gs.board.m
  let cbc := cell_column / gs.board.n
  let psr0 := pv ∉ s.nsRow cell_row
  let psc0 := pv ∉ s.nsCol cell_column
  let psb0 := pv ∉ s.nsBlock cbr cbc
  if ¬psr0 ∧ ¬psc0 ∧ ¬psb0 then s
  else
    let scan :=
      (List.range gs.board.N).foldl (hs_scan_step gs s.lm cell_row cell_column pv)
        ⟨psr0, psc0, psb0, s.nsRow, s.nsCol, s.nsBlock⟩
    if scan.psr ∨ scan.psc ∨ scan.psb then
      ⟨s.lm.setVal cell [pv], scan.nsRow, scan.nsCol, scan.nsBlock⟩
    else
      ⟨s.lm, scan.nsRow, scan.nsCol, scan.nsBlock⟩

/-- `taboo_move_calculation.hidden_singles` (A2 file as present in the
repository): for each cell (dictionary iteration order, constant key set)
and each value currently legal in it (the list snapshot taken when the loop
starts; the only assignment inside rebinds the dictionary slot, not the
iterated list), collapse the cell to that value when no other cell of its
row, column or block admits it.  The map is narrowed in place; as with
`obvious_singles`, no taboo output is produced. -/
def hidden_singles (gs : GameState) (lm : CandMap) : CandMap :=
  (lm.keys.foldl
    (fun (s : HSState) cell => (s.lm.val cell).foldl (hs_value_step gs cell) s)
    ⟨lm, fun _ => [], fun _ => [], fun _ _ => []⟩).lm

/-! ### Monotonicity machinery (claim C8) -/

/-- Pointwise narrowing of candidate maps: every candidate surviving in
`m1` at a cell was already a candidate in `m2` there. -/
def CandMap.Le (m1 m2 : CandMap) : Prop :=
  ∀ c v, v ∈ m1.lookupD c → v ∈ m2.lookupD c

lemma CandMap.Le.rfl (m : CandMap) : m.Le m := fun _ _ h => h

lemma CandMap.Le.trans {m1 m2 m3 : CandMap} (h12 : m1.Le m2) (h23 : m2.Le m3) : m1.Le m3 :=
  fun c v h => h23 c v (h12 c v h)

lemma CandMap.eraseVal_le (m : CandMap) (c : Nat × Nat) (v : Nat) : (m.eraseVal c v).Le m := by
  intro c' w hw
  simp only [CandMap.eraseVal, CandMap.setVal, CandMap.lookupD] at hw ⊢
  by_cases hk : c' ∈ m.keys
  · simp only [hk, if_true] at hw ⊢
    by_cases hc : c' = c
    · simp only [hc, if_true] at hw
      exact hc ▸ (List.erase_subset _ _) hw
    · simpa [hc] using hw
  · simpa [hk] using hw

lemma guarded_erase_le (lm : CandMap) (c : Nat × Nat) (v : Nat) : (guarded_erase lm c v).Le lm := by
  unfold guarded_erase
  split
  · exact lm.eraseVal_le c v
  · exact CandMap.Le.rfl lm

lemma CandMap.setVal_single_le (m : CandMap) (c : Nat × Nat) {v : Nat} (hv : v ∈ m.val c) :
    (m.setVal c [v]).Le m := by
  intro c' w hw
  simp only [CandMap.setVal, CandMap.lookupD] at hw ⊢
  by_cases hk : c' ∈ m.keys
  · simp only [hk, if_true] at hw ⊢
    by_cases hc : c' = c
    · simp only [hc, if_true] at hw
      simp only [List.mem_singleton] at hw
      exact hc ▸ hw ▸ hv
    · simpa [hc] using hw
  · simpa [hk] using hw

/-- A fold whose every step narrows the map (through a projection) narrows
the map overall. -/
lemma foldl_le_proj {σ α : Type} (π : σ → CandMap) (step : σ → α → σ)
    (h : ∀ s x, (π (step s x)).Le (π s)) :
    ∀ (xs : List α) (s : σ), (π (xs.foldl step s)).Le (π s) := by
  intro xs
  induction xs with
  | nil => exact fun s => CandMap.Le.rfl _
  | cons x xs ih =>
    intro s
    exact (ih (step s x)).trans (h s x)

lemma foldl_le {α : Type} (step : CandMap → α → CandMap) (h : ∀ m x, (step m x).Le m) :
    ∀ (xs : List α) (m : CandMap), (xs.foldl step m).Le m :=
  fun xs m => foldl_le_proj (fun s => s) step h xs m

end Sudoku

namespace Sudoku

/-- Python `range(0, stop, step)` for a positive step: `0, step, 2*step, …`
with `ceil(stop / step)` elements. -/
def range_step (stop step : Nat) : List Nat :=
  (List.range ((stop + step - 1) / step)).map fun k => step * k

/-- The `incomplete_numbers` selection of `locked_candidates_rows` for the
band starting at row `i`: every `number` in `range(1, N)` (note: digit `N`
itself is never considered by the source) such that at least two of the
band's rows still admit it. -/
def incomplete_numbers_rows (gs : GameState) (allowed_in_rows : Nat → List Nat) (i : Nat) :
    List Nat :=
  (List.range' 1 (gs.board.N - 1)).filter fun number =>
    let rows_containing_number :=
      ((List.range' i gs.board.m).filter fun ii => number ∉ allowed_in_rows ii).length
    gs.board.m - rows_containing_number ≥ 2

/-- The `rows_allowing_number` collection of `locked_candidates_rows` for the
block at `(i, j)`: the band rows with at least one cell of the block whose
current candidate list contains `number` (the inner `break` merely stops
after the first such column). -/
def rows_allowing_number (gs : GameState) (lm : CandMap) (number i j : Nat) : List Nat :=
  (List.range' i gs.board.m).filterMap fun row_index =>
    if (List.range' j gs.board.n).any (fun col_index =>
        decide ((row_index, col_index) ∈ lm.keys ∧ number ∈ lm.val (row_index, col_index))) then
      some row_index
    else none

/-- The `newly_occupied_blocks` / `newly_occupied_rows` pair accumulated by
`locked_candidates_rows` for one `number` (the unguarded Python access
`allowed_in_blocks[(i, j)]` is modeled by `Option.getD []`; the source would
raise a `KeyError` on a missing key). -/
def newly_occupied_rows_calc (gs : GameState) (lm : CandMap)
    (allowed_in_blocks : Nat × Nat → Option (List Nat)) (number i : Nat) :
    List (Nat × Nat) × List Nat :=
  (range_step gs.board.N gs.board.m).foldl
    (fun acc j =>
      if number ∈ (allowed_in_blocks (i, j)).getD [] then
        let ra := rows_allowing_number gs lm number i j
        if ra.length = 1 then (acc.1 ++ [(i, j)], acc.2 ++ [ra.headI]) else acc
      else acc)
    ([], [])

/-- The per-`number` body of `locked_candidates_rows`: find the blocks of the
band whose placements of `number` are confined to a single row, and erase
`number` from those rows in every other block of the band that still admits
it. -/
def locked_rows_number_step (gs : GameState) (allowed_in_rows : Nat → List Nat)
    (allowed_in_blocks : Nat × Nat → Option (List Nat)) (i : Nat) (lm : CandMap)
    (number : Nat) : CandMap :=
  let no := newly_occupied_rows_calc gs lm allowed_in_blocks number i
  if no.2.length > 0 then
    let blocks_to_check :=
      (range_step gs.board.N gs.board.m).filterMap fun j =>
        if (i, j) ∉ no.1 ∧ number ∈ (allowed_in_blocks (i, j)).getD [] then some (i, j)
        else none
    let rows_to_check :=
      (List.range' i gs.board.m).filter fun row =>
        number ∈ allowed_in_rows row ∧ row ∈ no.2
    blocks_to_check.foldl
      (fun lm1 block =>
        rows_to_check.foldl
          (fun lm2 row =>
            (List.range' block.2 gs.board.n).foldl
              (fun lm3 j => guarded_erase lm3 (row, j) number) lm2)
          lm1)
      lm
  else lm

/-- `taboo_move_calculation.locked_candidates_rows` (A2 file).  The guard
returns the map untouched for `m ≤ 2`; otherwise the band loop steps by
`columns_per_block` and the inner block loop by `rows_per_block`, exactly as
in the source. -/
def locked_candidates_rows (gs : GameState) (lm : CandMap)
    (allowed_in_rows : Nat → List Nat) (allowed_in_blocks : Nat × Nat → Option (List Nat)) :
    CandMap :=
  if gs.board.m ≤ 2 then lm
  else
    (range_step gs.board.N gs.board.n).foldl
      (fun lmBand i =>
        (incomplete_numbers_rows gs allowed_in_rows i).foldl
          (locked_rows_number_step gs allowed_in_rows allowed_in_blocks i) lmBand)
      lm

/-- The `incomplete_numbers` selection of `locked_candidates_columns`. -/
def incomplete_numbers_cols (gs : GameState) (allowed_in_columns : Nat → List Nat) (j : Nat) :
    List Nat :=
  (List.range' 1 (gs.board.N - 1)).filter fun number =>
    let columns_containing_number :=
      ((List.range' j gs.board.n).filter fun jj => number ∉ allowed_in_columns jj).length
    gs.board.n - columns_containing_number ≥ 2

/-- The `columns_allowing_number` collection of `locked_candidates_columns`. -/
def columns_allowing_number (gs : GameState) (lm : CandMap) (number i j : Nat) : List Nat :=
  (List.range' j gs.board.n).filterMap fun col_index =>
    if (List.range' i gs.board.m).any (fun row_index =>
        decide ((row_index, col_index) ∈ lm.keys ∧ number ∈ lm.val (row_index, col_index))) then
      some col_index
    else none

/-- The `newly_occupied_blocks` / `newly_occupied_columns` pair of
`locked_candidates_columns` (here the source does guard the dictionary
access with `(i, j) in allowed_in_blocks`). -/
def newly_occupied_cols_calc (gs : GameState) (lm : CandMap)
    (allowed_in_blocks : Nat × Nat → Option (List Nat)) (number j : Nat) :
    List (Nat × Nat) × List Nat :=
  (range_step gs.board.N gs.board.n).foldl
    (fun acc i =>
      if (allowed_in_blocks (i, j)).isSome ∧ number ∈ (allowed_in_blocks (i, j)).getD [] then
        let ca := columns_allowing_number gs lm number i j
        if ca.length = 1 then (acc.1 ++ [(i, j)], acc.2 ++ [ca.headI]) else acc
      else acc)
    ([], [])

/-- The per-`number` body of `locked_candidates_columns`. -/
def locked_cols_number_step (gs : GameState) (allowed_in_columns : Nat → List Nat)
    (allowed_in_blocks : Nat × Nat → Option (List Nat)) (j : Nat) (lm : CandMap)
    (number : Nat) : CandMap :=
  let no := newly_occupied_cols_calc gs lm allowed_in_blocks number j
  if no.2.length > 0 then
    let blocks_to_check :=
      (range_step gs.board.N gs.board.n).filterMap fun i =>
        if (i, j) ∉ no.1 ∧ (allowed_in_blocks (i, j)).isSome ∧
            number ∈ (allowed_in_blocks (i, j)).getD [] then some (i, j)
        else none
    let columns_to_check :=
      (List.range' j gs.board.n).filter fun col =>
        number ∈ allowed_in_columns col ∧ col ∈ no.2
    blocks_to_check.foldl
      (fun lm1 block =>
        columns_to_check.foldl
          (fun lm2 col =>
            (List.range' block.1 gs.board.m).foldl
              (fun lm3 i => guarded_erase lm3 (i, col) number) lm2)
          lm1)
      lm
  else lm

/-- `taboo_move_calculation.locked_candidates_columns` (A2 file).  The guard
returns the map untouched for `n ≤ 2`.  The `return` statement of the source
sits inside the outer `for j in range(0, N, rows_per_block)` loop, so only
the first band start (`j = 0`, when the range is non-empty) is ever
processed before the function returns. -/
def locked_candidates_columns (gs : GameState) (lm : CandMap)
    (allowed_in_columns : Nat → List Nat) (allowed_in_blocks : Nat × Nat → Option (List Nat)) :
    CandMap :=
  if gs.board.n ≤ 2 then lm
  else
    match range_step gs.board.N gs.board.m with
    | [] => lm
    | j :: _ =>
      (incomplete_numbers_cols gs allowed_in_columns j).foldl
        (locked_cols_number_step gs allowed_in_columns allowed_in_blocks j) lm

end Sudoku

namespace Sudoku

lemma ite_guarded_le (p : Prop) [Decidable p] (m : CandMap) (c : Nat × Nat) (v : Nat) :
    (if p then guarded_erase m c v else m).Le m := by
  split
  · exact guarded_erase_le m c v
  · exact CandMap.Le.rfl m

lemma obvious_singles_inner_le (gs : GameState) (row col value : Nat) (lm : CandMap) :
    (obvious_singles_inner gs row col value lm).Le lm := by
  refine foldl_le _ ?_ _ _
  intro m i
  dsimp only
  exact CandMap.Le.trans (ite_guarded_le _ _ _ _)
    (CandMap.Le.trans (ite_guarded_le _ _ _ _) (ite_guarded_le _ _ _ _))

lemma obvious_singles_le (gs : GameState) (lm : CandMap) : (obvious_singles gs lm).Le lm := by
  refine foldl_le _ ?_ _ _
  intro m cell
  dsimp only
  cases h : m.val cell with
  | nil => exact CandMap.Le.rfl m
  | cons v vs =>
    cases vs with
    | nil => exact obvious_singles_inner_le gs cell.1 cell.2 v m
    | cons w ws => exact CandMap.Le.rfl m

lemma CandMap.setVal_setVal (m : CandMap) (c : Nat × Nat) (a b : List Nat) :
    (m.setVal c a).setVal c b = m.setVal c b := by
  simp only [CandMap.setVal, CandMap.mk.injEq, true_and]
  funext c'
  by_cases h : c' = c <;> simp [h]

lemma hs_value_step_lm (gs : GameState) (cell : Nat × Nat) (s : HSState) (pv : Nat) :
    (hs_value_step gs cell s pv).lm = s.lm ∨
    (hs_value_step gs cell s pv).lm = s.lm.setVal cell [pv] := by
  unfold hs_value_step
  dsimp only
  split
  · exact Or.inl rfl
  · split
    · exact Or.inr rfl
    · exact Or.inl rfl

lemma hs_cell_fold_lm (gs : GameState) (cell : Nat × Nat) :
    ∀ (l : List Nat) (s : HSState),
      ((l.foldl (hs_value_step gs cell) s).lm = s.lm) ∨
      (∃ v ∈ l, (l.foldl (hs_value_step gs cell) s).lm = s.lm.setVal cell [v]) := by
  intro l
  induction l with
  | nil => intro s; exact Or.inl rfl
  | cons v vs ih =>
    intro s
    rw [List.foldl_cons]
    rcases hs_value_step_lm gs cell s v with h | h
    · rcases ih (hs_value_step gs cell s v) with h2 | ⟨w, hw, h2⟩
      · exact Or.inl (h2.trans h)
      · exact Or.inr ⟨w, List.mem_cons_of_mem _ hw, h2.trans (by rw [h])⟩
    · rcases ih (hs_value_step gs cell s v) with h2 | ⟨w, hw, h2⟩
      · exact Or.inr ⟨v, List.mem_cons_self _ _, h2.trans h⟩
      · exact Or.inr ⟨w, List.mem_cons_of_mem _ hw,
          by rw [h2, h, CandMap.setVal_setVal]⟩

lemma hidden_singles_le (gs : GameState) (lm : CandMap) : (hidden_singles gs lm).Le lm := by
  unfold hidden_singles
  refine foldl_le_proj HSState.lm _ ?_ _ _
  intro s cell
  rcases hs_cell_fold_lm gs cell (s.lm.val cell) s with h | ⟨v, hv, h⟩
  · rw [h]
    exact CandMap.Le.rfl _
  · rw [h]
    exact s.lm.setVal_single_le cell hv

lemma locked_rows_number_step_le (gs : GameState) (rows : Nat → List Nat)
    (blocks : Nat × Nat → Option (List Nat)) (i : Nat) (lm : CandMap) (number : Nat) :
    (locked_rows_number_step gs rows blocks i lm number).Le lm := by
  unfold locked_rows_number_step
  dsimp only
  split
  · refine foldl_le _ ?_ _ _
    intro m1 block
    refine foldl_le _ ?_ _ _
    intro m2 row
    refine foldl_le _ ?_ _ _
    intro m3 j
    exact guarded_erase_le m3 (row, j) number
  · exact CandMap.Le.rfl lm

lemma locked_candidates_rows_le (gs : GameState) (lm : CandMap)
    (rows : Nat → List Nat) (blocks : Nat × Nat → Option (List Nat)) :
    (locked_candidates_rows gs lm rows blocks).Le lm := by
  unfold locked_candidates_rows
  split
  · exact CandMap.Le.rfl lm
  · refine foldl_le _ ?_ _ _
    intro m i
    refine foldl_le _ ?_ _ _
    intro m2 number
    exact locked_rows_number_step_le gs rows blocks i m2 number

lemma locked_cols_number_step_le (gs : GameState) (cols : Nat → List Nat)
    (blocks : Nat × Nat → Option (List Nat)) (j : Nat) (lm : CandMap) (number : Nat) :
    (locked_cols_number_step gs cols blocks j lm number).Le lm := by
  unfold locked_cols_number_step
  dsimp only
  split
  · refine foldl_le _ ?_ _ _
    intro m1 block
    refine foldl_le _ ?_ _ _
    intro m2 col
    refine foldl_le _ ?_ _ _
    intro m3 i
    exact guarded_erase_le m3 (i, col) number
  · exact CandMap.Le.rfl lm

lemma locked_candidates_columns_le (gs : GameState) (lm : CandMap)
    (cols : Nat → List Nat) (blocks : Nat × Nat → Option (List Nat)) :
    (locked_candidates_columns gs lm cols blocks).Le lm := by
  unfold locked_candidates_columns
  split
  · exact CandMap.Le.rfl lm
  · split
    · exact CandMap.Le.rfl lm
    · refine foldl_le _ ?_ _ _
      intro m number
      exact locked_cols_number_step_le gs cols blocks _ m number

/-- Claim C8: every taboo-inference pass is monotone — after a pass, each
cell's candidate set is a pointwise subset of its set before, so no
eliminated candidate is ever reintroduced — and each pass is idempotent on a
fixed point: a map a pass leaves unchanged yields no further eliminations
when the pass runs again. -/
theorem taboo_passes_monotone_and_idempotent_on_fixed_points :
    (∀ (gs : GameState) (lm : CandMap) (c : Nat × Nat) (v : Nat),
      v ∈ (obvious_singles gs lm).lookupD c → v ∈ lm.lookupD c) ∧
    (∀ (gs : GameState) (lm : CandMap) (c : Nat × Nat) (v : Nat),
      v ∈ (hidden_singles gs lm).lookupD c → v ∈ lm.lookupD c) ∧
    (∀ (gs : GameState) (lm : CandMap) (rows : Nat → List Nat)
        (blocks : Nat × Nat → Option (List Nat)) (c : Nat × Nat) (v : Nat),
      v ∈ (locked_candidates_rows gs lm rows blocks).lookupD c → v ∈ lm.lookupD c) ∧
    (∀ (gs : GameState) (lm : CandMap) (cols : Nat → List Nat)
        (blocks : Nat × Nat → Option (List Nat)) (c : Nat × Nat) (v : Nat),
      v ∈ (locked_candidates_columns gs lm cols blocks).lookupD c → v ∈ lm.lookupD c) ∧
    (∀ (gs : GameState) (lm : CandMap), obvious_singles gs lm = lm →
      obvious_singles gs (obvious_singles gs lm) = obvious_singles gs lm) ∧
    (∀ (gs : GameState) (lm : CandMap), hidden_singles gs lm = lm →
      hidden_singles gs (hidden_singles gs lm) = hidden_singles gs lm) ∧
    (∀ (gs : GameState) (lm : CandMap) (rows : Nat → List Nat)
        (blocks : Nat × Nat → Option (List Nat)),
      locked_candidates_rows gs lm rows blocks = lm →
      locked_candidates_rows gs (locked_candidates_rows gs lm rows blocks) rows blocks =
        locked_candidates_rows gs lm rows blocks) ∧
    (∀ (gs : GameState) (lm : CandMap) (cols : Nat → List Nat)
        (blocks : Nat × Nat → Option (List Nat)),
      locked_candidates_columns gs lm cols blocks = lm →
      locked_candidates_columns gs (locked_candidates_columns gs lm cols blocks) cols blocks =
        locked_candidates_columns gs lm cols blocks) := by
  refine ⟨?_, ?_, ?_, ?_, ?_, ?_, ?_, ?_⟩
  · exact fun gs lm c v h => obvious_singles_le gs lm c v h
  · exact fun gs lm c v h => hidden_singles_le gs lm c v h
  · exact fun gs lm rows blocks c v h => locked_candidates_rows_le gs lm rows blocks c v h
  · exact fun gs lm cols blocks c v h => locked_candidates_columns_le gs lm cols blocks c v h
  · intro gs lm h
    rw [h, h]
  · intro gs lm h
    rw [h, h]
  · intro gs lm rows blocks h
    rw [h, h]
  · intro gs lm cols blocks h
    rw [h, h]

/-- Witness for the monotonicity half of C8 at a concrete input: the pass on
`c3LM` eliminates nothing at cell `(0, 0)`, whose surviving candidate `1` was
indeed present before. -/
theorem taboo_passes_monotone_witness :
    1 ∈ (obvious_singles c3GS c3LM).lookupD (0, 0) ∧ 1 ∈ c3LM.lookupD (0, 0) :=
  ⟨by decide,
    taboo_passes_monotone_and_idempotent_on_fixed_points.1 c3GS c3LM (0, 0) 1 (by decide)⟩

/-- Claim C10: with block bands of at most two rows, `locked_candidates_rows`
returns the candidate map completely unchanged, and with at most two block
columns `locked_candidates_columns` likewise changes nothing (both passes
guard on the block dimensions before touching anything). -/
theorem locked_candidates_noop_on_small_blocks (gs : GameState) (lm : CandMap)
    (rows cols : Nat → List Nat) (blocks : Nat × Nat → Option (List Nat)) :
    (gs.board.m ≤ 2 → locked_candidates_rows gs lm rows blocks = lm) ∧
    (gs.board.n ≤ 2 → locked_candidates_columns gs lm cols blocks = lm) := by
  constructor
  · intro h
    unfold locked_candidates_rows
    rw [if_pos h]
  · intro h
    unfold locked_candidates_columns
    rw [if_pos h]

/-- Witness for C10 on a 4x4 board with 2x2 blocks: both passes return the
concrete candidate map unchanged. -/
theorem locked_candidates_noop_witness :
    c3GS.board.m ≤ 2 ∧ c3GS.board.n ≤ 2 ∧
    locked_candidates_rows c3GS c3LM (fun _ => []) (fun _ => none) = c3LM ∧
    locked_candidates_columns c3GS c3LM (fun _ => []) (fun _ => none) = c3LM :=
  ⟨by decide, by decide,
    (locked_candidates_noop_on_small_blocks c3GS c3LM (fun _ => []) (fun _ => [])
      (fun _ => none)).1 (by decide),
    (locked_candidates_noop_on_small_blocks c3GS c3LM (fun _ => []) (fun _ => [])
      (fun _ => none)).2 (by decide)⟩

end Sudoku

namespace Sudoku

/-- Restating `simulate_move` on a non-taboo move as one explicit record
expression (pure unfolding). -/
lemma simulate_move_false (gs : GameState) (mv : Move) :
    simulate_move gs mv false =
      (let fs : GameState :=
        ⟨gs.board.put mv.i mv.j mv.value, gs.moves ++ [mv], gs.scores, gs.taboo_moves⟩
       let regions_completed :=
        (if (allowed_numbers_in_block fs mv.i mv.j).length = 0 then 1 else 0) +
        (if (allowed_numbers_in_row fs mv.i).length = 0 then 1 else 0) +
        (if (allowed_numbers_in_column fs mv.j).length = 0 then 1 else 0)
       let score : Int :=
        if regions_completed = 1 then 1
        else if regions_completed = 2 then 3
        else if regions_completed = 3 then 7
        else 0
       if gs.moves.length % 2 = 0 then
        ⟨fs.board, fs.moves, (gs.scores.1 + score, gs.scores.2), gs.taboo_moves⟩
       else
        ⟨fs.board, fs.moves, (gs.scores.1, gs.scores.2 + score), gs.taboo_moves⟩) := rfl

/-- The `allowed_numbers_in_row` set of a game state is empty exactly when
every digit of `{1..N}` occurs somewhere in the row. -/
lemma allowed_numbers_in_row_empty_iff (gs : GameState) (r : Nat) :
    ((allowed_numbers_in_row gs r).length = 0 ↔
      ∀ v ∈ List.range' 1 gs.board.N,
        ∃ j' ∈ List.range gs.board.N, gs.board.get r j' = v) := by
  have he : allowed_numbers_in_row gs r = not_in_row gs r := rfl
  rw [he, List.length_eq_zero]
  unfold not_in_row
  rw [List.filter_eq_nil]
  constructor
  · intro h v hv
    have h2 := h v hv
    simp only [decide_eq_true_eq, not_not] at h2
    obtain ⟨j', hj', hget, _⟩ := mem_in_row.mp h2
    exact ⟨j', List.mem_range.mpr hj', hget⟩
  · intro h v hv
    obtain ⟨j', hj', hget⟩ := h v hv
    have hv1 : 1 ≤ v := (List.mem_range'_1.mp hv).1
    simp only [decide_eq_true_eq, not_not]
    exact mem_in_row.mpr ⟨j', List.mem_range.mp hj', hget, by omega⟩

/-- The `allowed_numbers_in_column` counterpart. -/
lemma allowed_numbers_in_column_empty_iff (gs : GameState) (c : Nat) :
    ((allowed_numbers_in_column gs c).length = 0 ↔
      ∀ v ∈ List.range' 1 gs.board.N,
        ∃ i' ∈ List.range gs.board.N, gs.board.get i' c = v) := by
  have he : allowed_numbers_in_column gs c = not_in_column gs c := rfl
  rw [he, List.length_eq_zero]
  unfold not_in_column
  rw [List.filter_eq_nil]
  constructor
  · intro h v hv
    have h2 := h v hv
    simp only [decide_eq_true_eq, not_not] at h2
    obtain ⟨i', hi', hget, _⟩ := mem_in_column.mp h2
    exact ⟨i', List.mem_range.mpr hi', hget⟩
  · intro h v hv
    obtain ⟨i', hi', hget⟩ := h v hv
    have hv1 : 1 ≤ v := (List.mem_range'_1.mp hv).1
    simp only [decide_eq_true_eq, not_not]
    exact mem_in_column.mpr ⟨i', List.mem_range.mp hi', hget, by omega⟩

/-- The `allowed_numbers_in_block` set of a game state is empty exactly when
every digit of `{1..N}` occurs somewhere in the `m × n` block containing
`(r, c)`. -/
lemma allowed_numbers_in_block_empty_iff (gs : GameState) (r c : Nat)
    (hm : 0 < gs.board.m) (hn : 0 < gs.board.n) :
    ((allowed_numbers_in_block gs r c).length = 0 ↔
      ∀ v ∈ List.range' 1 gs.board.N,
        ∃ i' ∈ List.range' (r - r % gs.board.m) gs.board.m,
          ∃ j' ∈ List.range' (c - c % gs.board.n) gs.board.n, gs.board.get i' j' = v) := by
  have hrm := Nat.mod_lt r hm
  have hrm2 := Nat.mod_le r gs.board.m
  have hcn := Nat.mod_lt c hn
  have hcn2 := Nat.mod_le c gs.board.n
  have harg1 : r + (gs.board.m - r % gs.board.m) - (r - r % gs.board.m) = gs.board.m := by
    omega
  have harg2 : c + (gs.board.n - c % gs.board.n) - (c - c % gs.board.n) = gs.board.n := by
    omega
  unfold allowed_numbers_in_block
  rw [List.length_eq_zero]
  simp only [harg1, harg2]
  rw [List.filter_eq_nil]
  constructor
  · intro h v hv
    have h2 := h v hv
    simp only [decide_eq_true_eq, not_not, List.mem_flatMap, List.mem_filterMap] at h2
    obtain ⟨i', hi', j', hj', hif⟩ := h2
    by_cases hc0 : gs.board.get i' j' ≠ 0 <;> simp [hc0] at hif
    exact ⟨i', hi', j', hj', hif⟩
  · intro h v hv
    obtain ⟨i', hi', j', hj', hget⟩ := h v hv
    have hv1 : 1 ≤ v := (List.mem_range'_1.mp hv).1
    simp only [decide_eq_true_eq, not_not, List.mem_flatMap, List.mem_filterMap]
    exact ⟨i', hi', j', hj', by simp [hget]; omega⟩

/-- Claim C2: on every game state and non-taboo move, `simulate_move`
credits the mover — player 1 when the history length is even, player 2
otherwise — with exactly 0 / 1 / 3 / 7 points according to the move
completing exactly 0 / 1 / 2 / 3 of the affected row, column and block of
the resulting board, and leaves the other player's score unchanged. -/
theorem simulate_move_scoring (gs : GameState) (mv : Move)
    (hm : 0 < gs.board.m) (hn : 0 < gs.board.n) :
    (simulate_move gs mv false).scores =
      (let b' := gs.board.put mv.i mv.j mv.value
       let completed :=
        (if (∀ v ∈ List.range' 1 gs.board.N,
              ∃ i' ∈ List.range' (mv.i - mv.i % gs.board.m) gs.board.m,
                ∃ j' ∈ List.range' (mv.j - mv.j % gs.board.n) gs.board.n,
                  b'.get i' j' = v) then 1 else 0) +
        (if (∀ v ∈ List.range' 1 gs.board.N,
              ∃ j' ∈ List.range gs.board.N, b'.get mv.i j' = v) then 1 else 0) +
        (if (∀ v ∈ List.range' 1 gs.board.N,
              ∃ i' ∈ List.range gs.board.N, b'.get i' mv.j = v) then 1 else 0)
       let points : Int :=
        if completed = 1 then 1
        else if completed = 2 then 3
        else if completed = 3 then 7
        else 0
       if gs.moves.length % 2 = 0 then (gs.scores.1 + points, gs.scores.2)
       else (gs.scores.1, gs.scores.2 + points)) := by
  rw [simulate_move_false]
  have hb' : ((allowed_numbers_in_block
        (⟨gs.board.put mv.i mv.j mv.value, gs.moves ++ [mv], gs.scores, gs.taboo_moves⟩ :
          GameState) mv.i mv.j).length = 0) ↔
      (∀ v ∈ List.range' 1 gs.board.N,
        ∃ i' ∈ List.range' (mv.i - mv.i % gs.board.m) gs.board.m,
          ∃ j' ∈ List.range' (mv.j - mv.j % gs.board.n) gs.board.n,
            (gs.board.put mv.i mv.j mv.value).get i' j' = v) :=
    allowed_numbers_in_block_empty_iff _ mv.i mv.j hm hn
  have hr' : ((allowed_numbers_in_row
        (⟨gs.board.put mv.i mv.j mv.value, gs.moves ++ [mv], gs.scores, gs.taboo_moves⟩ :
          GameState) mv.i).length = 0) ↔
      (∀ v ∈ List.range' 1 gs.board.N,
        ∃ j' ∈ List.range gs.board.N, (gs.board.put mv.i mv.j mv.value).get mv.i j' = v) :=
    allowed_numbers_in_row_empty_iff _ mv.i
  have hc' : ((allowed_numbers_in_column
        (⟨gs.board.put mv.i mv.j mv.value, gs.moves ++ [mv], gs.scores, gs.taboo_moves⟩ :
          GameState) mv.j).length = 0) ↔
      (∀ v ∈ List.range' 1 gs.board.N,
        ∃ i' ∈ List.range gs.board.N, (gs.board.put mv.i mv.j mv.value).get i' mv.j = v) :=
    allowed_numbers_in_column_empty_iff _ mv.j
  dsimp only
  simp only [hb', hr', hc']
  by_cases hp : gs.moves.length % 2 = 0
  · simp [hp]
  · simp [hp]

/-- A 4x4 state in which placing `4` at `(0, 3)` completes the first row
only: the mover is player 1 (empty history) and earns exactly one point. -/
def c2GS : GameState :=
  ⟨⟨2, 2, fun i j =>
      if i = 0 ∧ j = 0 then 1 else if i = 0 ∧ j = 1 then 2
      else if i = 0 ∧ j = 2 then 3 else 0⟩,
    [], (0, 0), []⟩

/-- Witness for `simulate_move_scoring`: the resulting score pair is
`(1, 0)`. -/
theorem simulate_move_scoring_witness :
    (simulate_move c2GS ⟨0, 3, 4⟩ false).scores = (1, 0) :=
  (simulate_move_scoring c2GS ⟨0, 3, 4⟩ (by decide) (by decide)).trans (by decide)

end Sudoku

namespace Sudoku

/-- `SudokuAI.Node._want_to_play_taboo` (A3 minimax agent): never when the
player can score; otherwise exactly when an even number of empty squares
remains and the board is at least half filled. -/
def want_to_play_taboo (gs : GameState) (can_score : Bool) : Bool :=
  if can_score then false
  else if even_number_of_squares_left gs && board_half_filled_in gs then true
  else false

/-- `SudokuAI.Node.extend_node` (A3 minimax agent), parametrised by the
`(valuable_moves, taboo_moves, can_score)` triple that
`SudokuAI.get_valuable_moves` returns for the node's game state (that callee
shuffles its output lists and relies on a helper module absent from the
sources, so its results enter here as inputs).  The first component is the
list of child game states, the second the node's `playing_taboo` flag. -/
def extend_node (gs : GameState) (valuable_moves taboo_moves : List Move) (can_score : Bool) :
    List GameState × Bool :=
  if 0 < taboo_moves.length ∧ taboo_moves.length < 20 ∧ taboo_moves.length % 2 = 1 ∧
      want_to_play_taboo gs can_score = true then
    ([simulate_move gs taboo_moves.headI true], true)
  else
    (valuable_moves.map (fun mv => simulate_move gs mv false), false)

lemma want_to_play_taboo_iff (gs : GameState) (cs : Bool) :
    want_to_play_taboo gs cs = true ↔
      (cs = false ∧ even_number_of_squares_left gs = true ∧
       board_half_filled_in gs = true) := by
  unfold want_to_play_taboo
  cases cs
  · by_cases h : even_number_of_squares_left gs && board_half_filled_in gs
    · simp only [Bool.false_eq_true, if_false, h, if_true]
      simp only [Bool.and_eq_true] at h
      simp [h.1, h.2]
    · simp only [Bool.false_eq_true, if_false, h, if_true]
      simp only [Bool.and_eq_true, not_and_or] at h
      rcases h with h | h <;> simp [h]
  · simp

/-- A 4x4 state (2x2 blocks) with the first two rows filled: eight empty
cells (even) and exactly half the board filled. -/
def c4GS : GameState :=
  ⟨⟨2, 2, fun i j =>
      if i = 0 then j + 1
      else if i = 1 then (if j = 0 then 3 else if j = 1 then 4 else if j = 2 then 1 else 2)
      else 0⟩,
    [], (0, 0), []⟩

def c4VM : List Move := [⟨2, 0, 3⟩, ⟨2, 1, 4⟩]

def c4TM : List Move := [⟨2, 0, 1⟩, ⟨2, 1, 2⟩]

def c4TM1 : List Move := [⟨2, 0, 1⟩]

/-- Counterexample to claim C4 as stated: in `c4GS` the searching side
cannot score (`can_score = false`), eight empty cells remain (even), the
board is half filled, and two inferred taboo moves exist (strictly between 0
and 20) — yet `extend_node` does not engage the taboo policy: the node is
not marked `playing_taboo` and it expands the two valuable moves instead of
a single taboo child, because the source additionally requires the inferred
taboo count to be odd (`len(taboo_moves) % 2 == 1`). -/
theorem extend_node_taboo_policy_counterexample :
    0 < c4TM.length ∧ c4TM.length < 20 ∧
    want_to_play_taboo c4GS false = true ∧
    (extend_node c4GS c4VM c4TM false).2 = false ∧
    (extend_node c4GS c4VM c4TM false).1.length = 2 := by
  refine ⟨by decide, by decide, by decide, ?_, ?_⟩
  · have h : ¬(0 < c4TM.length ∧ c4TM.length < 20 ∧ c4TM.length % 2 = 1 ∧
        want_to_play_taboo c4GS false = true) := by decide
    unfold extend_node
    rw [if_neg h]
  · have h : ¬(0 < c4TM.length ∧ c4TM.length < 20 ∧ c4TM.length % 2 = 1 ∧
        want_to_play_taboo c4GS false = true) := by decide
    unfold extend_node
    rw [if_neg h]
    simp [c4VM]

/-- Claim C4 as amended: the A3 taboo policy engages exactly when the
inferred taboo count is strictly between 0 and 20 AND ODD, the node cannot
score, an even number of empty cells remains and the board is at least half
filled; when engaged, the node's only child is the first inferred taboo move
played as a taboo move, and the node is flagged `playing_taboo` (terminal
for the search); otherwise one child per valuable move is created. -/
theorem extend_node_taboo_policy (gs : GameState) (vm tm : List Move) (cs : Bool) :
    ((extend_node gs vm tm cs).2 = true ↔
      (0 < tm.length ∧ tm.length < 20 ∧ tm.length % 2 = 1 ∧ cs = false ∧
       even_number_of_squares_left gs = true ∧ board_half_filled_in gs = true)) ∧
    ((extend_node gs vm tm cs).2 = true →
      (extend_node gs vm tm cs).1 = [simulate_move gs tm.headI true]) ∧
    ((extend_node gs vm tm cs).2 = false →
      (extend_node gs vm tm cs).1 = vm.map (fun mv => simulate_move gs mv false)) := by
  unfold extend_node
  by_cases h : 0 < tm.length ∧ tm.length < 20 ∧ tm.length % 2 = 1 ∧
      want_to_play_taboo gs cs = true
  · rw [if_pos h]
    obtain ⟨h1, h2, h3, h4⟩ := h
    obtain ⟨h5, h6, h7⟩ := (want_to_play_taboo_iff gs cs).mp h4
    exact ⟨by simp [h1, h2, h3, h5, h6, h7], fun _ => rfl, fun hctr => by simp at hctr⟩
  · rw [if_neg h]
    refine ⟨?_, fun hctr => by simp at hctr, fun _ => rfl⟩
    simp only [Bool.false_eq_true, false_iff]
    rintro ⟨h1, h2, h3, h4, h5, h6⟩
    exact h ⟨h1, h2, h3, (want_to_play_taboo_iff gs cs).mpr ⟨h4, h5, h6⟩⟩

/-- Witness for the amended C4: with a single (odd-count) inferred taboo
move the policy engages and the sole child is that taboo move. -/
theorem extend_node_taboo_policy_witness :
    (extend_node c4GS c4VM c4TM1 false).2 = true ∧
    (extend_node c4GS c4VM c4TM1 false).1 = [simulate_move c4GS c4TM1.headI true] :=
  ⟨by decide, (extend_node_taboo_policy c4GS c4VM c4TM1 false).2.1 (by decide)⟩

/-- `random.choice(root.children)`: some element for a non-empty list (the
head as fixed representative of the random draw), and the `IndexError` the
source raises on an empty list is `none`. -/
def random_choice (children : List GameState) : Option GameState :=
  children.head?

lemma simulate_move_false_moves (gs : GameState) (mv : Move) :
    (simulate_move gs mv false).moves = gs.moves ++ [mv] := by
  rw [simulate_move_false]
  dsimp only
  split <;> rfl

/-- The initial fallback proposal of `SudokuAI.compute_best_move` (A3):
`root.extend_node()` followed by
`propose_move(random.choice(root.children).game_state.moves[-1])`.
A `none` result means the `random.choice` call raised `IndexError` and
`compute_best_move` died without proposing anything. -/
def compute_best_move_initial (gs : GameState) (vm tm : List Move) (cs : Bool) : Option Move :=
  (random_choice (extend_node gs vm tm cs).1).bind fun child => child.moves.getLast?

/-- A completely filled 4x4 board: no legal move exists. -/
def c5Full : GameState := ⟨⟨2, 2, fun i j => (i + j) % 4 + 1⟩, [], (0, 0), []⟩

/-- Claim C5 evaluation: on a board with no empty cell the candidate move
map of `compute_all_legal_moves` has no entries (so `get_valuable_moves`
returns empty move and taboo lists), and the initial proposal step of
`compute_best_move` then evaluates `random.choice` on the empty child list —
the modelled result `none` is the uncaught `IndexError` of the source, which
aborts `compute_best_move` instead of leaving the last proposal standing.
With at least one valuable move the engine does propose an initial fallback
move before iterative deepening, as the claim's second half states. -/
theorem compute_best_move_no_legal_move_crash :
    (compute_all_legal_moves c5Full).keys = [] ∧
    compute_best_move_initial c5Full [] [] false = none ∧
    (∀ (gs : GameState) (mv : Move) (vms : List Move),
      compute_best_move_initial gs (mv :: vms) [] false = some mv) := by
  refine ⟨by decide, by decide, ?_⟩
  intro gs mv vms
  unfold compute_best_move_initial random_choice extend_node
  rw [if_neg (by simp)]
  simp [simulate_move_false_moves]

end Sudoku

namespace Sudoku

/-- The Monte-Carlo search `Node` of `team27_A3_monte_carlo.sudokuai`:
game state, lazily expanded children, accumulated score, visit count, the
cached UCT value and its dirty flag.  The UCT is a float in the source;
`none` stands for `float('inf')` (the value assigned to every unvisited
node) and `some q` for a finite value — the transcendental
`C * sqrt(ln(parent) / visits)` term never produces an infinity. -/
inductive MCNode where
  | mk (gs : GameState) (children : List MCNode) (score_obtained : Int)
      (number_visits : Nat) (uct : Option ℚ) (uct_needs_update : Bool)

def MCNode.gs : MCNode → GameState
  | .mk g _ _ _ _ _ => g

def MCNode.children : MCNode → List MCNode
  | .mk _ cs _ _ _ _ => cs

def MCNode.score_obtained : MCNode → Int
  | .mk _ _ sc _ _ _ => sc

def MCNode.number_visits : MCNode → Nat
  | .mk _ _ _ nv _ _ => nv

def MCNode.uct : MCNode → Option ℚ
  | .mk _ _ _ _ u _ => u

/-- `node.uct_needs_update = True` (the only flag write monte_carlo makes). -/
def MCNode.setFlagTrue : MCNode → MCNode
  | .mk g cs sc nv u _ => .mk g cs sc nv u true

/-- `SudokuAI.Node.calculate_uct`: infinity (`none`) for an unvisited node;
otherwise the average obtained score plus the exploration term, whose
transcendental factor `C * sqrt(ln(parent_visits) / visits)` is abstracted
as the (finite) penalty function `pen`. -/
def calculate_uct (pen : Nat → Nat → ℚ) (parent_number_visits : Nat)
    (score_obtained : Int) (number_visits : Nat) : Option ℚ :=
  if number_visits = 0 then none
  else some ((score_obtained : ℚ) / (number_visits : ℚ) + pen parent_number_visits number_visits)

/-- `child.uct > highest_uct` where the accumulator starts at
`float('-inf')` (`none`): any finite value beats `-inf`. -/
def uct_gt (u : ℚ) : Option ℚ → Bool
  | none => true
  | some h => decide (h < u)

/-- The leaf-selection loop of `SudokuAI.monte_carlo` (lines 259–283): walk
the children in order, return the first child whose cached UCT is infinite
(`break` on an unvisited child), otherwise track the child with the highest
finite UCT.  The position of the chosen child inside the list is threaded
alongside it (Python works with the aliased object instead). -/
def select_loop : List MCNode → Nat → Option ℚ → Option (Nat × MCNode) → Option (Nat × MCNode)
  | [], _, _, best => best
  | c :: cs, k, highest, best =>
    match c.uct with
    | none => some (k, c)
    | some u =>
      if uct_gt u highest then select_loop cs (k + 1) (some u) (some (k, c))
      else select_loop cs (k + 1) highest best

def select_optimal_child (children : List MCNode) : Option (Nat × MCNode) :=
  select_loop children 0 none none

lemma select_loop_inf : ∀ (cs : List MCNode) (k : Nat) (h : Option ℚ)
    (best : Option (Nat × MCNode)),
    (∃ c ∈ cs, c.uct = none) →
    ∃ kc, select_loop cs k h best = some kc ∧ kc.2.uct = none := by
  intro cs
  induction cs with
  | nil =>
    rintro k h best ⟨c, hc, _⟩
    exact absurd hc (List.not_mem_nil c)
  | cons c cs ih =>
    rintro k h best ⟨d, hd, hdu⟩
    rw [select_loop]
    cases hcu : c.uct with
    | none => exact ⟨(k, c), rfl, hcu⟩
    | some u =>
      have hd' : d ∈ cs := by
        rcases List.mem_cons.mp hd with rfl | hd'
        · rw [hdu] at hcu
          cases hcu
        · exact hd'
      dsimp only
      by_cases hgt : uct_gt u h = true
      · rw [hgt, if_pos rfl]
        exact ih (k + 1) (some u) (some (k, c)) ⟨d, hd', hdu⟩
      · rw [Bool.not_eq_true] at hgt
        rw [hgt]
        simp only [Bool.false_eq_true, if_false]
        exact ih (k + 1) h best ⟨d, hd', hdu⟩

lemma select_loop_mem : ∀ (cs : List MCNode) (k : Nat) (h : Option ℚ)
    (best : Option (Nat × MCNode)) (kc : Nat × MCNode),
    select_loop cs k h best = some kc →
    (∃ i, cs.get? i = some kc.2 ∧ kc.1 = k + i) ∨ best = some kc := by
  intro cs
  induction cs with
  | nil =>
    intro k h best kc hs
    exact Or.inr hs
  | cons c cs ih =>
    intro k h best kc hs
    rw [select_loop] at hs
    cases hcu : c.uct with
    | none =>
      rw [hcu] at hs
      injection hs with hs
      subst hs
      exact Or.inl ⟨0, rfl, by omega⟩
    | some u =>
      rw [hcu] at hs
      dsimp only at hs
      by_cases hgt : uct_gt u h = true
      · rw [hgt, if_pos rfl] at hs
        rcases ih (k + 1) (some u) (some (k, c)) kc hs with ⟨i, hi, hk⟩ | hb
        · exact Or.inl ⟨i + 1, by simpa using hi, by omega⟩
        · injection hb with hb
          subst hb
          exact Or.inl ⟨0, rfl, by omega⟩
      · rw [Bool.not_eq_true] at hgt
        rw [hgt] at hs
        simp only [Bool.false_eq_true, if_false] at hs
        rcases ih (k + 1) h best kc hs with ⟨i, hi, hk⟩ | hb
        · exact Or.inl ⟨i + 1, by simpa using hi, by omega⟩
        · exact Or.inr hb

/-- Claim C9 (as amended if needed — here provable as stated):
`calculate_uct` yields `+inf` exactly on visit count zero, and the selection
loop never returns a finite-UCT child while a sibling carries an infinite
UCT; consequently, with up-to-date cached UCTs, an unvisited sibling forces
the selected child to be unvisited. -/
theorem uct_selection_favors_unvisited :
    (∀ (pen : Nat → Nat → ℚ) (pv : Nat) (sc : Int) (n : Nat),
      calculate_uct pen pv sc n = none ↔ n = 0) ∧
    (∀ cs : List MCNode, (∃ c ∈ cs, c.uct = none) →
      ∃ kc, select_optimal_child cs = some kc ∧ kc.2.uct = none) ∧
    (∀ (pen : Nat → Nat → ℚ) (pv : Nat) (cs : List MCNode),
      (∀ c ∈ cs, c.uct = calculate_uct pen pv c.score_obtained c.number_visits) →
      (∃ c ∈ cs, c.number_visits = 0) →
      ∃ kc, select_optimal_child cs = some kc ∧ kc.2.number_visits = 0) := by
  have hiff : ∀ (pen : Nat → Nat → ℚ) (pv : Nat) (sc : Int) (n : Nat),
      calculate_uct pen pv sc n = none ↔ n = 0 := by
    intro pen pv sc n
    unfold calculate_uct
    split
    · simp_all
    · simp_all
  refine ⟨hiff, ?_, ?_⟩
  · intro cs hex
    exact select_loop_inf cs 0 none none hex
  · intro pen pv cs hupd ⟨c, hc, hcv⟩
    have hcu : c.uct = none := by
      rw [hupd c hc, hiff]
      exact hcv
    obtain ⟨kc, hsel, hkcu⟩ := select_loop_inf cs 0 none none ⟨c, hc, hcu⟩
    refine ⟨kc, hsel, ?_⟩
    rcases select_loop_mem cs 0 none none kc hsel with ⟨i, hi, _⟩ | hb
    · have hmem : kc.2 ∈ cs := List.get?_mem hi
      have := hupd kc.2 hmem
      rw [this, hiff] at hkcu
      exact hkcu
    · cases hb

/-- Witness for C9: a two-child list whose second child is unvisited (cached
UCT infinite); selection returns an unvisited child. -/
def c9GS : GameState := ⟨⟨2, 2, fun _ _ => 0⟩, [], (0, 0), []⟩

def c9Visited : MCNode := .mk c9GS [] 1 1 (calculate_uct (fun _ _ => 0) 2 1 1) false

def c9Fresh : MCNode := .mk c9GS [] 0 0 (calculate_uct (fun _ _ => 0) 2 0 0) false

theorem uct_selection_favors_unvisited_witness :
    ∃ kc, select_optimal_child [c9Visited, c9Fresh] = some kc ∧ kc.2.number_visits = 0 :=
  uct_selection_favors_unvisited.2.2 (fun _ _ => 0) 2 [c9Visited, c9Fresh]
    (by
      intro c hc
      rcases List.mem_cons.mp hc with rfl | hc
      · rfl
      · rcases List.mem_cons.mp hc with rfl | hc
        · rfl
        · exact absurd hc (List.not_mem_nil c))
    ⟨c9Fresh, by simp, rfl⟩

end Sudoku

namespace Sudoku

/-- The backpropagation block of `SudokuAI.monte_carlo` (lines 322–362)
applied at one node: the visit count always increments; on a successful
simulation the score is adjusted by the winner/mover parity rule, on an
unsuccessful one it is left alone; finally the node's dirty flag and those
of all its (updated) children are set. -/
def mc_backprop (root_is_player_1 successful : Bool) (w : Int) (gs : GameState)
    (cs : List MCNode) (sc : Int) (nv : Nat) (uct : Option ℚ) : MCNode :=
  let sc' :=
    if successful then
      let node_is_player_1 := gs.moves.length % 2 = 0
      let node_is_winner := (w = 1 ∧ node_is_player_1) ∨ (w = 2 ∧ ¬node_is_player_1)
      if (w = 1 ∧ root_is_player_1 = true) ∨ (w = 2 ∧ root_is_player_1 = false) then
        (if node_is_winner then sc - 1 else sc + 1)
      else sc
    else sc
  .mk gs (cs.map MCNode.setFlagTrue) sc' (nv + 1) uct true

/-- One `SudokuAI.monte_carlo` call (one MCTS iteration) of the
`team27_A3_monte_carlo` agent, as a function from the node (sub)tree to the
updated tree plus the `(successful_simulation, winning_player)` pair it
returns.  Randomness and the helper-module dependencies enter as oracles:
`playout` stands for `Node.simulate_play_out`, `extend` for the child states
`Node.extend_node` would create, `pick` for the `random.choice` index of the
expansion step.  `none` models an uncaught exception (`random.choice` on an
empty child list), and the structural `fuel` argument merely bounds the
recursion depth — the source recursion is bounded by the finite tree height,
and every theorem below conditions on the call returning a value.
The branches: descend into the selected child when one exists; at a
childless node, a full board is a terminal state (note the source reports
the raw score difference as `winning_player` there), an unvisited node runs
a play-out, and a visited one expands its children (each fresh child carries
an infinite UCT after the `calculate_uct` loop) and immediately simulates
from the randomly picked fresh leaf, which then backpropagates on itself. -/
def mcStep (playout : GameState → Bool × Int) (extend : GameState → List GameState)
    (pick : Nat) (rootP1 : Bool) : Nat → MCNode → Option (MCNode × Bool × Int)
  | 0, _ => none
  | fuel + 1, .mk gs cs sc nv uct _ =>
    match select_optimal_child cs with
    | some kc =>
      match mcStep playout extend pick rootP1 fuel kc.2 with
      | none => none
      | some res =>
        some (mc_backprop rootP1 res.2.1 res.2.2 gs (cs.set kc.1 res.1) sc nv uct,
              res.2.1, res.2.2)
    | none =>
      if board_filled_in gs then
        some (mc_backprop rootP1 true (gs.scores.1 - gs.scores.2) gs cs sc nv uct,
              true, gs.scores.1 - gs.scores.2)
      else if nv = 0 then
        some (mc_backprop rootP1 (playout gs).1 (playout gs).2 gs cs sc nv uct,
              (playout gs).1, (playout gs).2)
      else
        let kids := (extend gs).map fun g => MCNode.mk g [] 0 0 none false
        match kids.get? (pick % kids.length) with
        | none => none
        | some fresh =>
          let inner :=
            if board_filled_in fresh.gs then (true, fresh.gs.scores.1 - fresh.gs.scores.2)
            else playout fresh.gs
          let fresh' := mc_backprop rootP1 inner.1 inner.2 fresh.gs [] 0 0 none
          some (mc_backprop rootP1 inner.1 inner.2 gs
                  (kids.set (pick % kids.length) fresh') sc nv uct,
                inner.1, inner.2)

/-- The selection path walked by `mcStep` (child indices from the root down
to the node the rollout originates from). -/
def mcPath (extend : GameState → List GameState) (pick : Nat) : Nat → MCNode → List Nat
  | 0, _ => []
  | fuel + 1, .mk gs cs _ nv _ _ =>
    match select_optimal_child cs with
    | some kc => kc.1 :: mcPath extend pick fuel kc.2
    | none =>
      if board_filled_in gs then []
      else if nv = 0 then []
      else
        let kids := (extend gs).map fun g => MCNode.mk g [] 0 0 none false
        match kids.get? (pick % kids.length) with
        | none => []
        | some _ => [pick % kids.length]

/-- The subtree of a node at a child-index path. -/
def MCNode.sub? : MCNode → List Nat → Option MCNode
  | t, [] => some t
  | .mk _ cs _ _ _ _, k :: p => (cs.get? k).bind fun c => c.sub? p

/-- `onPath q p` holds when `q` is an initial segment of `p` (the positions
whose nodes lie on the selection path). -/
def onPath : List Nat → List Nat → Bool
  | [], _ => true
  | _ :: _, [] => false
  | a :: q, b :: p => decide (a = b) && onPath q p

lemma mc_backprop_false (rp : Bool) (w : Int) (gs : GameState) (cs : List MCNode)
    (sc : Int) (nv : Nat) (uct : Option ℚ) :
    mc_backprop rp false w gs cs sc nv uct =
      .mk gs (cs.map MCNode.setFlagTrue) sc (nv + 1) uct true := rfl

lemma setFlag_sub?_cons (c : MCNode) (k : Nat) (p : List Nat) :
    (c.setFlagTrue).sub? (k :: p) = c.sub? (k :: p) := by
  cases c
  rfl

lemma setFlag_score (c : MCNode) : (c.setFlagTrue).score_obtained = c.score_obtained := by
  cases c
  rfl

lemma setFlag_visits (c : MCNode) : (c.setFlagTrue).number_visits = c.number_visits := by
  cases c
  rfl

lemma sub?_nil (t : MCNode) : t.sub? [] = some t := by
  cases t
  rfl

lemma select_loop_isSome_of_best : ∀ (cs : List MCNode) (k : Nat) (h : Option ℚ)
    (kc : Nat × MCNode), (select_loop cs k h (some kc)).isSome = true := by
  intro cs
  induction cs with
  | nil => intro k h kc; rfl
  | cons c cs ih =>
    intro k h kc
    rw [select_loop]
    cases c.uct with
    | none => rfl
    | some u =>
      dsimp only
      by_cases hgt : uct_gt u h = true
      · rw [hgt, if_pos rfl]
        exact ih (k + 1) (some u) (k, c)
      · rw [Bool.not_eq_true] at hgt
        rw [hgt]
        simp only [Bool.false_eq_true, if_false]
        exact ih (k + 1) h kc

/-- The selection loop comes back empty only on an empty child list. -/
lemma select_none_nil {cs : List MCNode} (h : select_optimal_child cs = none) : cs = [] := by
  cases cs with
  | nil => rfl
  | cons c cs =>
    exfalso
    unfold select_optimal_child at h
    rw [select_loop] at h
    cases hcu : c.uct with
    | none =>
      rw [hcu] at h
      cases h
    | some u =>
      rw [hcu] at h
      dsimp only at h
      have hgt : uct_gt u none = true := rfl
      rw [hgt, if_pos rfl] at h
      have := select_loop_isSome_of_best cs 1 (some u) (0, c)
      rw [h] at this
      cases this

end Sudoku

namespace Sudoku

/-- Claim C6 as amended: in an MCTS iteration whose rollout ends
unsuccessfully, every node on the selection path — from the node the
iteration was started on down to the node the rollout originated from, the
root included — has its visit count incremented by exactly one, every other
pre-existing node keeps both its visit count and its accumulated score, no
node's accumulated score changes at all, and any nodes freshly created by an
expansion carry zero score and at most one visit. -/
theorem mcts_unsuccessful_iteration_backprop
    (playout : GameState → Bool × Int) (extend : GameState → List GameState)
    (pick : Nat) (rootP1 : Bool) :
    ∀ (fuel : Nat) (t t' : MCNode) (w : Int),
      mcStep playout extend pick rootP1 fuel t = some (t', false, w) →
      (∀ q o, t.sub? q = some o →
        ∃ nn, t'.sub? q = some nn ∧
          nn.score_obtained = o.score_obtained ∧
          nn.number_visits = o.number_visits +
            (if onPath q (mcPath extend pick fuel t) then 1 else 0)) ∧
      (∀ q nn, t.sub? q = none → t'.sub? q = some nn →
        nn.score_obtained = 0 ∧ nn.number_visits ≤ 1) := by
  intro fuel
  induction fuel with
  | zero =>
    intro t t' w h
    cases h
  | succ fuel ih =>
    rintro ⟨gs, cs, sc, nv, uct, fl⟩ t' w h
    rw [mcStep] at h
    cases hsel : select_optimal_child cs with
    | some kc =>
      rw [hsel] at h
      dsimp only at h
      cases hres : mcStep playout extend pick rootP1 fuel kc.2 with
      | none =>
        rw [hres] at h
        cases h
      | some res =>
        rw [hres] at h
        obtain ⟨ct', sb, wb⟩ := res
        dsimp only at h
        injection h with h
        have hsb : sb = false := congrArg (fun x => x.2.1) h
        have hwb : wb = w := congrArg (fun x => x.2.2) h
        have hb1 : t' = mc_backprop rootP1 sb wb gs (cs.set kc.1 ct') sc nv uct :=
          (congrArg Prod.fst h).symm
        subst hsb
        subst hwb
        rw [mc_backprop_false] at hb1
        subst hb1
        have hidx : cs.get? kc.1 = some kc.2 := by
          rcases select_loop_mem cs 0 none none kc hsel with ⟨i, hi, hk⟩ | hb
          · rw [hk]
            simpa using hi
          · cases hb
        have ihc := ih kc.2 ct' wb hres
        have hpath : mcPath extend pick (fuel + 1) (.mk gs cs sc nv uct fl) =
            kc.1 :: mcPath extend pick fuel kc.2 := by
          rw [mcPath, hsel]
        rw [hpath]
        constructor
        · intro q o ho
          cases q with
          | nil =>
            rw [MCNode.sub?] at ho
            injection ho with ho
            subst ho
            exact ⟨_, rfl, rfl, by simp [onPath, MCNode.number_visits]⟩
          | cons k p =>
            rw [MCNode.sub?] at ho
            by_cases hk : k = kc.1
            · subst hk
              rw [hidx] at ho
              simp only [Option.some_bind] at ho
              have hget : (cs.set kc.1 ct').get? kc.1 = some ct' := by
                rw [List.get?_set_eq, hidx]
                rfl
              have hnew : (MCNode.mk gs ((cs.set kc.1 ct').map MCNode.setFlagTrue)
                  sc (nv + 1) uct true).sub? (kc.1 :: p) = (ct'.setFlagTrue).sub? p := by
                rw [MCNode.sub?, List.get?_map, hget]
                rfl
              rw [hnew]
              cases p with
              | nil =>
                rw [sub?_nil] at ho
                injection ho with ho
                subst ho
                obtain ⟨nn', hnn', hs', hv'⟩ := ihc.1 [] kc.2 (sub?_nil kc.2)
                rw [sub?_nil] at hnn'
                injection hnn' with hnn'
                subst hnn'
                refine ⟨ct'.setFlagTrue, sub?_nil _, ?_, ?_⟩
                · rw [setFlag_score, hs']
                · rw [setFlag_visits, hv']
                  simp [onPath]
              | cons p1 p2 =>
                rw [setFlag_sub?_cons]
                obtain ⟨nn, hnn, hs', hv'⟩ := ihc.1 (p1 :: p2) o ho
                refine ⟨nn, hnn, hs', ?_⟩
                rw [hv']
                simp [onPath]
            · have hget : (cs.set kc.1 ct').get? k = cs.get? k :=
                List.get?_set_ne ct' cs (fun hcon => hk hcon.symm)
              have hnew : (MCNode.mk gs ((cs.set kc.1 ct').map MCNode.setFlagTrue)
                  sc (nv + 1) uct true).sub? (k :: p) =
                  ((cs.get? k).map MCNode.setFlagTrue).bind (fun c => c.sub? p) := by
                rw [MCNode.sub?, List.get?_map, hget]
              rw [hnew]
              cases hck : cs.get? k with
              | none =>
                rw [hck] at ho
                cases ho
              | some c =>
                rw [hck] at ho
                simp only [Option.some_bind] at ho
                simp only [Option.map_some', Option.some_bind]
                cases p with
                | nil =>
                  rw [sub?_nil] at ho
                  injection ho with ho
                  subst ho
                  refine ⟨c.setFlagTrue, sub?_nil _, setFlag_score c, ?_⟩
                  rw [setFlag_visits]
                  simp [onPath, hk]
                | cons p1 p2 =>
                  rw [setFlag_sub?_cons]
                  refine ⟨o, ho, rfl, ?_⟩
                  simp [onPath, hk]
        · intro q nn hold hnew
          cases q with
          | nil =>
            rw [MCNode.sub?] at hold
            cases hold
          | cons k p =>
            rw [MCNode.sub?] at hold
            rw [MCNode.sub?, List.get?_map] at hnew
            by_cases hk : k = kc.1
            · subst hk
              rw [hidx] at hold
              simp only [Option.some_bind] at hold
              have hget : (cs.set kc.1 ct').get? kc.1 = some ct' := by
                rw [List.get?_set_eq, hidx]
                rfl
              rw [hget] at hnew
              simp only [Option.map_some', Option.some_bind] at hnew
              cases p with
              | nil =>
                rw [sub?_nil] at hold
                cases hold
              | cons p1 p2 =>
                rw [setFlag_sub?_cons] at hnew
                exact ihc.2 (p1 :: p2) nn hold hnew
            · have hget : (cs.set kc.1 ct').get? k = cs.get? k :=
                List.get?_set_ne ct' cs (fun hcon => hk hcon.symm)
              rw [hget] at hnew
              cases hck : cs.get? k with
              | none =>
                rw [hck] at hnew
                cases hnew
              | some c =>
                rw [hck] at hold
                rw [hck] at hnew
                simp only [Option.some_bind] at hold
                simp only [Option.map_some', Option.some_bind] at hnew
                cases p with
                | nil =>
                  rw [sub?_nil] at hold
                  cases hold
                | cons p1 p2 =>
                  rw [setFlag_sub?_cons] at hnew
                  rw [hnew] at hold
                  cases hold
    | none =>
      rw [hsel] at h
      dsimp only at h
      have hcs : cs = [] := select_none_nil hsel
      subst hcs
      by_cases hbf : board_filled_in gs = true
      · rw [if_pos hbf] at h
        injection h with h
        have : (true : Bool) = false := congrArg (fun x => x.2.1) h
        cases this
      · rw [if_neg hbf] at h
        have hpath0 : mcPath extend pick (fuel + 1)
            (.mk gs ([] : List MCNode) sc nv uct fl) =
            (if nv = 0 then [] else
              (let kids := (extend gs).map fun g => MCNode.mk g [] 0 0 none false
               match kids.get? (pick % kids.length) with
               | none => []
               | some _ => [pick % kids.length])) := by
          rw [mcPath, hsel, if_neg hbf]
        by_cases hnv : nv = 0
        · rw [if_pos hnv] at h
          injection h with h
          have hsucc : (playout gs).1 = false := congrArg (fun x => x.2.1) h
          have hb1 : t' = mc_backprop rootP1 (playout gs).1 (playout gs).2 gs [] sc nv uct :=
            (congrArg Prod.fst h).symm
          rw [hsucc, mc_backprop_false] at hb1
          subst hb1
          rw [hpath0, if_pos hnv]
          constructor
          · intro q o ho
            cases q with
            | nil =>
              rw [MCNode.sub?] at ho
              injection ho with ho
              subst ho
              exact ⟨_, rfl, rfl, by simp [onPath, MCNode.number_visits]⟩
            | cons k p =>
              rw [MCNode.sub?] at ho
              simp at ho
          · intro q nn hold hnew
            cases q with
            | nil =>
              rw [MCNode.sub?] at hold
              cases hold
            | cons k p =>
              rw [MCNode.sub?] at hnew
              simp at hnew
        · rw [if_neg hnv] at h
          cases hkid : ((extend gs).map fun g =>
              MCNode.mk g [] 0 0 none false).get? (pick % ((extend gs).map fun g =>
              MCNode.mk g [] 0 0 none false).length) with
          | none =>
            rw [hkid] at h
            cases h
          | some fresh =>
            rw [hkid] at h
            dsimp only at h
            injection h with h
            have hsucc : (if board_filled_in fresh.gs then
                (true, fresh.gs.scores.1 - fresh.gs.scores.2)
              else playout fresh.gs).1 = false := congrArg (fun x => x.2.1) h
            have hbf2 : board_filled_in fresh.gs ≠ true := by
              intro hcon
              rw [if_pos hcon] at hsucc
              cases hsucc
            rw [if_neg hbf2] at hsucc h
            have hb1 : t' = mc_backprop rootP1 (playout fresh.gs).1 (playout fresh.gs).2 gs
                (((extend gs).map fun g => MCNode.mk g [] 0 0 none false).set
                  (pick % ((extend gs).map fun g => MCNode.mk g [] 0 0 none false).length)
                  (mc_backprop rootP1 (playout fresh.gs).1 (playout fresh.gs).2
                    fresh.gs [] 0 0 none))
                sc nv uct :=
              (congrArg Prod.fst h).symm
            rw [hsucc, mc_backprop_false, mc_backprop_false] at hb1
            subst hb1
            rw [hpath0, if_neg hnv]
            dsimp only
            rw [hkid]
            constructor
            · intro q o ho
              cases q with
              | nil =>
                rw [MCNode.sub?] at ho
                injection ho with ho
                subst ho
                exact ⟨_, rfl, rfl, by simp [onPath, MCNode.number_visits]⟩
              | cons k p =>
                rw [MCNode.sub?] at ho
                simp at ho
            · intro q nn hold hnew
              cases q with
              | nil =>
                rw [MCNode.sub?] at hold
                cases hold
              | cons k p =>
                rw [MCNode.sub?, List.get?_map] at hnew
                cases hgot : (((extend gs).map fun g => MCNode.mk g [] 0 0 none false).set
                    (pick % ((extend gs).map fun g =>
                      MCNode.mk g [] 0 0 none false).length)
                    (MCNode.mk fresh.gs ([].map MCNode.setFlagTrue) 0 (0 + 1) none
                      true)).get? k with
                | none =>
                  rw [hgot] at hnew
                  cases hnew
                | some kid =>
                  rw [hgot] at hnew
                  simp only [Option.map_some', Option.some_bind] at hnew
                  have hkidshape : kid.children = [] ∧ kid.score_obtained = 0 ∧
                      kid.number_visits ≤ 1 := by
                    rcases List.mem_or_eq_of_mem_set (List.get?_mem hgot) with hmem | heq
                    · obtain ⟨g, _, hg⟩ := List.mem_map.mp hmem
                      rw [← hg]
                      exact ⟨rfl, rfl, by simp [MCNode.number_visits]⟩
                    · rw [heq]
                      exact ⟨rfl, rfl, by simp [MCNode.number_visits]⟩
                  cases p with
                  | nil =>
                    rw [sub?_nil] at hnew
                    injection hnew with hnew
                    subst hnew
                    rcases hkidshape.2.1 with h1
                    rw [setFlag_score, setFlag_visits]
                    exact ⟨hkidshape.2.1, hkidshape.2.2⟩
                  | cons p1 p2 =>
                    rw [setFlag_sub?_cons] at hnew
                    have : kid.sub? (p1 :: p2) = none := by
                      cases hkc : kid with
                      | mk kg kcs ksc knv ku kf =>
                        have : kcs = [] := by
                          have := hkidshape.1
                          rw [hkc] at this
                          exact this
                        subst this
                        rw [MCNode.sub?]
                        rfl
                    rw [this] at hnew
                    cases hnew

end Sudoku

namespace Sudoku

/-- An unvisited leaf child (infinite cached UCT). -/
def c6Child : MCNode := .mk c9GS [] 0 0 none false

/-- A root that has been visited once, with the unvisited `c6Child` as its
only child. -/
def c6Root : MCNode := .mk c9GS [c6Child] 0 1 (some 0) false

/-- Counterexample to claim C6 as stated: this iteration selects `c6Child`
(path `[0]`), whose rollout is unsuccessful; the source then increments the
visit count at EVERY level of the recursion on the way back up, so not only
the originating child (0 → 1 visits) but also the root (1 → 2 visits) is
incremented — two nodes, not exactly one.  No score changes anywhere. -/
theorem mcts_exactly_one_increment_counterexample :
    mcStep (fun _ => (false, 0)) (fun _ => []) 0 true 2 c6Root =
      some (.mk c9GS [.mk c9GS [] 0 1 none true] 0 2 (some 0) true, false, 0) ∧
    c6Root.number_visits = 1 ∧
    (MCNode.mk c9GS [.mk c9GS [] 0 1 none true] 0 2 (some 0) true).number_visits = 2 ∧
    c6Child.number_visits = 0 ∧
    mcPath (fun _ => []) 0 2 c6Root = [0] :=
  ⟨rfl, rfl, rfl, rfl, rfl⟩

/-- Witness for the amended C6 theorem at the concrete iteration above: the
root lies on the selection path, keeps its score, and gains one visit. -/
theorem mcts_unsuccessful_iteration_backprop_witness :
    ∃ nn, (MCNode.mk c9GS [.mk c9GS [] 0 1 none true] 0 2 (some 0) true).sub? [] = some nn ∧
      nn.score_obtained = c6Root.score_obtained ∧
      nn.number_visits = c6Root.number_visits +
        (if onPath [] (mcPath (fun _ => []) 0 2 c6Root) then 1 else 0) :=
  (mcts_unsuccessful_iteration_backprop (fun _ => (false, 0)) (fun _ => []) 0 true 2 c6Root
      (.mk c9GS [.mk c9GS [] 0 1 none true] 0 2 (some 0) true) 0 rfl).1 [] c6Root
    (sub?_nil c6Root)

end Sudoku

namespace Sudoku

/-- A pre-expanded minimax search tree: one `Node` of the A2/A3 agents whose
`extend_node` children have already been materialised (the claim compares
the two searches "over the same children", and `extend_node` itself draws on
shuffled move lists, so the children enter as data). -/
inductive GTree where
  | mk (gs : GameState) (children : List GTree)

def GTree.gs : GTree → GameState
  | .mk g _ => g

def GTree.children : GTree → List GTree
  | .mk _ cs => cs

/-- `child.game_state.moves[-1]`, the move a child node was reached by. -/
def lastMove (t : GTree) : Option Move :=
  t.gs.moves.getLast?

/-- The maximizing `for child in node.children` loop of `SudokuAI.minimax`
(A2/A3, lines 158–177): fail-soft value threading, `alpha = max(alpha,
value)`, and the `value >= beta` cutoff. -/
def abLoopMax (recab : GTree → Int → Int → Int × Option Move) :
    List GTree → Int → Int → Int → Option Move → Int × Option Move
  | [], _, _, value, best => (value, best)
  | c :: cs, alpha, beta, value, best =>
    let new := (recab c alpha beta).1
    let value' := if new > value then new else value
    let best' := if new > value then lastMove c else best
    let alpha' := max alpha value'
    if value' ≥ beta then (value', best')
    else abLoopMax recab cs alpha' beta value' best'

/-- The minimizing loop of `SudokuAI.minimax` (lines 179–197): `beta =
min(beta, value)` and the `value <= alpha` cutoff. -/
def abLoopMin (recab : GTree → Int → Int → Int × Option Move) :
    List GTree → Int → Int → Int → Option Move → Int × Option Move
  | [], _, _, value, best => (value, best)
  | c :: cs, alpha, beta, value, best =>
    let new := (recab c alpha beta).1
    let value' := if new < value then new else value
    let best' := if new < value then lastMove c else best
    let beta' := min beta value'
    if value' ≤ alpha then (value', best')
    else abLoopMin recab cs alpha beta' value' best'

/-- `SudokuAI.minimax` (identical in A2 and A3) over a pre-expanded tree:
evaluate at depth zero or on a full board, otherwise run the maximizing or
minimizing alpha-beta loop over the children with the source's sentinel
start values (`-100000` when maximizing, `1000000` when minimizing).  The
evaluation function is a parameter (A2 uses the score difference, A3 adds a
numpy/float potential term that has no exact integer embedding). -/
def minimax (eval : GameState → Int) :
    Nat → GTree → Bool → Int → Int → Int × Option Move
  | 0, t, _, _, _ => (eval t.gs, none)
  | depth + 1, t, maximizing_player, alpha, beta =>
    if board_filled_in t.gs then (eval t.gs, none)
    else if maximizing_player then
      abLoopMax (fun c a b => minimax eval depth c false a b)
        t.children alpha beta (-100000) none
    else
      abLoopMin (fun c a b => minimax eval depth c true a b)
        t.children alpha beta 1000000 none

/-- The maximizing loop with the pruning lines removed. -/
def plainLoopMax (recp : GTree → Int × Option Move) :
    List GTree → Int → Option Move → Int × Option Move
  | [], value, best => (value, best)
  | c :: cs, value, best =>
    let new := (recp c).1
    let value' := if new > value then new else value
    let best' := if new > value then lastMove c else best
    plainLoopMax recp cs value' best'

/-- The minimizing loop with the pruning lines removed. -/
def plainLoopMin (recp : GTree → Int × Option Move) :
    List GTree → Int → Option Move → Int × Option Move
  | [], value, best => (value, best)
  | c :: cs, value, best =>
    let new := (recp c).1
    let value' := if new < value then new else value
    let best' := if new < value then lastMove c else best
    plainLoopMin recp cs value' best'

/-- Modelled from the spec: "unpruned minimax to the same depth over the
same children" — `SudokuAI.minimax` with the alpha/beta window and cutoffs
deleted and everything else unchanged. -/
def minimax_unpruned (eval : GameState → Int) : Nat → GTree → Bool → Int × Option Move
  | 0, t, _ => (eval t.gs, none)
  | depth + 1, t, maximizing_player =>
    if board_filled_in t.gs then (eval t.gs, none)
    else if maximizing_player then
      plainLoopMax (fun c => minimax_unpruned eval depth c false) t.children (-100000) none
    else
      plainLoopMin (fun c => minimax_unpruned eval depth c true) t.children 1000000 none

end Sudoku

namespace Sudoku

lemma plainLoopMax_pred (recp : GTree → Int × Option Move) (P : Int → Prop)
    (hP : ∀ x y, P x → P y → P (if y > x then y else x)) :
    ∀ (cs : List GTree) (v : Int) (b : Option Move),
      (∀ c ∈ cs, P (recp c).1) → P v → P (plainLoopMax recp cs v b).1 := by
  intro cs
  induction cs with
  | nil => exact fun v b _ hv => hv
  | cons c cs ih =>
    intro v b hrec hv
    rw [plainLoopMax]
    exact ih _ _ (fun c' hc' => hrec c' (List.mem_cons_of_mem _ hc'))
      (hP v (recp c).1 hv (hrec c (List.mem_cons_self _ _)))

lemma plainLoopMin_pred (recp : GTree → Int × Option Move) (P : Int → Prop)
    (hP : ∀ x y, P x → P y → P (if y < x then y else x)) :
    ∀ (cs : List GTree) (v : Int) (b : Option Move),
      (∀ c ∈ cs, P (recp c).1) → P v → P (plainLoopMin recp cs v b).1 := by
  intro cs
  induction cs with
  | nil => exact fun v b _ hv => hv
  | cons c cs ih =>
    intro v b hrec hv
    rw [plainLoopMin]
    exact ih _ _ (fun c' hc' => hrec c' (List.mem_cons_of_mem _ hc'))
      (hP v (recp c).1 hv (hrec c (List.mem_cons_self _ _)))

lemma abLoopMax_pred (recab : GTree → Int → Int → Int × Option Move) (P : Int → Prop)
    (hP : ∀ x y, P x → P y → P (if y > x then y else x)) :
    ∀ (cs : List GTree) (α β v : Int) (b : Option Move),
      (∀ c ∈ cs, ∀ a bb, P (recab c a bb).1) → P v → P (abLoopMax recab cs α β v b).1 := by
  intro cs
  induction cs with
  | nil => exact fun α β v b _ hv => hv
  | cons c cs ih =>
    intro α β v b hrec hv
    rw [abLoopMax]
    have hstep : P (if (recab c α β).1 > v then (recab c α β).1 else v) :=
      hP v (recab c α β).1 hv (hrec c (List.mem_cons_self _ _) α β)
    set v' := if (recab c α β).1 > v then (recab c α β).1 else v with hv'
    set b' := if (recab c α β).1 > v then lastMove c else b with hb'
    split
    · exact hstep
    · exact ih _ _ _ _ (fun c' hc' => hrec c' (List.mem_cons_of_mem _ hc')) hstep

lemma abLoopMin_pred (recab : GTree → Int → Int → Int × Option Move) (P : Int → Prop)
    (hP : ∀ x y, P x → P y → P (if y < x then y else x)) :
    ∀ (cs : List GTree) (α β v : Int) (b : Option Move),
      (∀ c ∈ cs, ∀ a bb, P (recab c a bb).1) → P v → P (abLoopMin recab cs α β v b).1 := by
  intro cs
  induction cs with
  | nil => exact fun α β v b _ hv => hv
  | cons c cs ih =>
    intro α β v b hrec hv
    rw [abLoopMin]
    have hstep : P (if (recab c α β).1 < v then (recab c α β).1 else v) :=
      hP v (recab c α β).1 hv (hrec c (List.mem_cons_self _ _) α β)
    set v' := if (recab c α β).1 < v then (recab c α β).1 else v with hv'
    set b' := if (recab c α β).1 < v then lastMove c else b with hb'
    split
    · exact hstep
    · exact ih _ _ _ _ (fun c' hc' => hrec c' (List.mem_cons_of_mem _ hc')) hstep

lemma plainLoopMax_ge_init (recp : GTree → Int × Option Move) :
    ∀ (cs : List GTree) (v : Int) (b : Option Move), v ≤ (plainLoopMax recp cs v b).1 := by
  intro cs
  induction cs with
  | nil => exact fun v b => le_refl v
  | cons c cs ih =>
    intro v b
    rw [plainLoopMax]
    refine le_trans ?_ (ih _ _)
    split <;> omega

lemma plainLoopMin_le_init (recp : GTree → Int × Option Move) :
    ∀ (cs : List GTree) (v : Int) (b : Option Move), (plainLoopMin recp cs v b).1 ≤ v := by
  intro cs
  induction cs with
  | nil => exact fun v b => le_refl v
  | cons c cs ih =>
    intro v b
    rw [plainLoopMin]
    refine le_trans (ih _ _) ?_
    split <;> omega

lemma abLoopMax_ge_init (recab : GTree → Int → Int → Int × Option Move) :
    ∀ (cs : List GTree) (α β v : Int) (b : Option Move),
      v ≤ (abLoopMax recab cs α β v b).1 := by
  intro cs
  induction cs with
  | nil => exact fun α β v b => le_refl v
  | cons c cs ih =>
    intro α β v b
    rw [abLoopMax]
    have hvle : v ≤ (if (recab c α β).1 > v then (recab c α β).1 else v) := by
      split <;> omega
    set v' := if (recab c α β).1 > v then (recab c α β).1 else v with hv'
    set b' := if (recab c α β).1 > v then lastMove c else b with hb'
    split
    · exact hvle
    · exact le_trans hvle (ih _ _ _ _)

lemma abLoopMin_le_init (recab : GTree → Int → Int → Int × Option Move) :
    ∀ (cs : List GTree) (α β v : Int) (b : Option Move),
      (abLoopMin recab cs α β v b).1 ≤ v := by
  intro cs
  induction cs with
  | nil => exact fun α β v b => le_refl v
  | cons c cs ih =>
    intro α β v b
    rw [abLoopMin]
    have hvle : (if (recab c α β).1 < v then (recab c α β).1 else v) ≤ v := by
      split <;> omega
    set v' := if (recab c α β).1 < v then (recab c α β).1 else v with hv'
    set b' := if (recab c α β).1 < v then lastMove c else b with hb'
    split
    · exact hvle
    · exact le_trans (ih _ _ _ _) hvle

lemma plainLoopMax_ge_child (recp : GTree → Int × Option Move) :
    ∀ (cs : List GTree) (v : Int) (b : Option Move) (c : GTree), c ∈ cs →
      (recp c).1 ≤ (plainLoopMax recp cs v b).1 := by
  intro cs
  induction cs with
  | nil =>
    intro v b c hc
    exact absurd hc (List.not_mem_nil c)
  | cons d cs ih =>
    intro v b c hc
    rw [plainLoopMax]
    rcases List.mem_cons.mp hc with rfl | hc'
    · refine le_trans ?_ (plainLoopMax_ge_init recp cs _ _)
      split <;> omega
    · exact ih _ _ c hc'

lemma plainLoopMin_le_child (recp : GTree → Int × Option Move) :
    ∀ (cs : List GTree) (v : Int) (b : Option Move) (c : GTree), c ∈ cs →
      (plainLoopMin recp cs v b).1 ≤ (recp c).1 := by
  intro cs
  induction cs with
  | nil =>
    intro v b c hc
    exact absurd hc (List.not_mem_nil c)
  | cons d cs ih =>
    intro v b c hc
    rw [plainLoopMin]
    rcases List.mem_cons.mp hc with rfl | hc'
    · refine le_trans (plainLoopMin_le_init recp cs _ _) ?_
      split <;> omega
    · exact ih _ _ c hc'

lemma plainLoopMax_mono_init (recp : GTree → Int × Option Move) :
    ∀ (cs : List GTree) (v1 v2 : Int) (b1 b2 : Option Move), v1 ≤ v2 →
      (plainLoopMax recp cs v1 b1).1 ≤ (plainLoopMax recp cs v2 b2).1 := by
  intro cs
  induction cs with
  | nil => exact fun v1 v2 b1 b2 h => h
  | cons c cs ih =>
    intro v1 v2 b1 b2 h
    rw [plainLoopMax, plainLoopMax]
    refine ih _ _ _ _ ?_
    split <;> split <;> omega

lemma plainLoopMin_mono_init (recp : GTree → Int × Option Move) :
    ∀ (cs : List GTree) (v1 v2 : Int) (b1 b2 : Option Move), v1 ≤ v2 →
      (plainLoopMin recp cs v1 b1).1 ≤ (plainLoopMin recp cs v2 b2).1 := by
  intro cs
  induction cs with
  | nil => exact fun v1 v2 b1 b2 h => h
  | cons c cs ih =>
    intro v1 v2 b1 b2 h
    rw [plainLoopMin, plainLoopMin]
    refine ih _ _ _ _ ?_
    split <;> split <;> omega

end Sudoku

namespace Sudoku

/-- Bounds and high-value characterisation of the alpha-beta values: with a
leaf evaluation strictly inside `(-100000, 100000)`, every value `minimax`
returns lies in `[-100000, 1000000]` and exceeds `100000` only as the exact
childless-minimizing sentinel `1000000`. -/
lemma minimax_bounds_high (eval : GameState → Int)
    (heval : ∀ s : GameState, -100000 < eval s ∧ eval s < 100000) :
    ∀ (d : Nat) (t : GTree) (maxi : Bool) (α β : Int),
      -100000 ≤ (minimax eval d t maxi α β).1 ∧
      (minimax eval d t maxi α β).1 ≤ 1000000 ∧
      ((minimax eval d t maxi α β).1 < 100000 ∨ (minimax eval d t maxi α β).1 = 1000000) := by
  intro d
  induction d with
  | zero =>
    intro t maxi α β
    have := heval t.gs
    rw [minimax]
    refine ⟨by omega, by omega, Or.inl (by omega)⟩
  | succ d ih =>
    intro t maxi α β
    rw [minimax]
    by_cases hbf : board_filled_in t.gs
    · rw [if_pos hbf]
      have := heval t.gs
      exact ⟨by omega, by omega, Or.inl (by omega)⟩
    · rw [if_neg hbf]
      cases maxi with
      | true =>
        rw [if_pos rfl]
        refine abLoopMax_pred _
          (fun x => -100000 ≤ x ∧ x ≤ 1000000 ∧ (x < 100000 ∨ x = 1000000))
          ?_ t.children α β (-100000) none ?_ ⟨by omega, by omega, Or.inl (by omega)⟩
        · intro x y hx hy
          split <;>
            [exact hy;
             exact hx]
        · intro c _ a bb
          exact ih c false a bb
      | false =>
        rw [if_neg (by simp)]
        refine abLoopMin_pred _
          (fun x => -100000 ≤ x ∧ x ≤ 1000000 ∧ (x < 100000 ∨ x = 1000000))
          ?_ t.children α β 1000000 none ?_ ⟨by omega, by omega, Or.inr rfl⟩
        · intro x y hx hy
          split <;>
            [exact hy;
             exact hx]
        · intro c _ a bb
          exact ih c true a bb

/-- The same bounds for the unpruned search. -/
lemma minimax_unpruned_bounds (eval : GameState → Int)
    (heval : ∀ s : GameState, -100000 < eval s ∧ eval s < 100000) :
    ∀ (d : Nat) (t : GTree) (maxi : Bool),
      -100000 ≤ (minimax_unpruned eval d t maxi).1 ∧
      (minimax_unpruned eval d t maxi).1 ≤ 1000000 := by
  intro d
  induction d with
  | zero =>
    intro t maxi
    have := heval t.gs
    rw [minimax_unpruned]
    exact ⟨by omega, by omega⟩
  | succ d ih =>
    intro t maxi
    rw [minimax_unpruned]
    by_cases hbf : board_filled_in t.gs
    · rw [if_pos hbf]
      have := heval t.gs
      exact ⟨by omega, by omega⟩
    · rw [if_neg hbf]
      cases maxi with
      | true =>
        rw [if_pos rfl]
        refine plainLoopMax_pred _ (fun x => -100000 ≤ x ∧ x ≤ 1000000)
          ?_ t.children (-100000) none ?_ ⟨by omega, by omega⟩
        · intro x y hx hy
          split <;>
            [exact hy;
             exact hx]
        · intro c _
          exact ih c false
      | false =>
        rw [if_neg (by simp)]
        refine plainLoopMin_pred _ (fun x => -100000 ≤ x ∧ x ≤ 1000000)
          ?_ t.children 1000000 none ?_ ⟨by omega, by omega⟩
        · intro x y hx hy
          split <;>
            [exact hy;
             exact hx]
        · intro c _
          exact ih c true

end Sudoku

namespace Sudoku

/-- Fail-soft specification of the maximizing alpha-beta loop relative to
the unpruned loop, with the running alpha written as `max α₀ value`
(the form the loop maintains from a node entered with window `(α₀, β)`). -/
lemma abLoopMax_spec (recab : GTree → Int → Int → Int × Option Move)
    (recp : GTree → Int × Option Move) (α₀ β : Int)
    (hα₀ : -100000 ≤ α₀) (hβ : β ≤ 1000000) (hαβ : α₀ < β) :
    ∀ (cs : List GTree),
      (∀ c ∈ cs, ∀ α' β', -100000 ≤ α' → β' ≤ 1000000 → α' < β' →
        ((recab c α' β').1 ≤ α' → (recp c).1 ≤ (recab c α' β').1) ∧
        (β' ≤ (recab c α' β').1 → (recab c α' β').1 ≤ (recp c).1) ∧
        (α' < (recab c α' β').1 → (recab c α' β').1 < β' →
          (recab c α' β').1 = (recp c).1)) →
      ∀ (v : Int) (b bp : Option Move), v < β →
        v ≤ (abLoopMax recab cs (max α₀ v) β v b).1 ∧
        ((abLoopMax recab cs (max α₀ v) β v b).1 < β →
          (plainLoopMax recp cs v bp).1 ≤ (abLoopMax recab cs (max α₀ v) β v b).1) ∧
        (β ≤ (abLoopMax recab cs (max α₀ v) β v b).1 →
          ∃ c ∈ cs, (abLoopMax recab cs (max α₀ v) β v b).1 ≤ (recp c).1) ∧
        (α₀ < (abLoopMax recab cs (max α₀ v) β v b).1 →
          (abLoopMax recab cs (max α₀ v) β v b).1 < β →
          ((abLoopMax recab cs (max α₀ v) β v b).1 = v ∨
            ∃ c ∈ cs, (abLoopMax recab cs (max α₀ v) β v b).1 ≤ (recp c).1)) := by
  intro cs
  induction cs with
  | nil =>
    intro _ v b bp hvβ
    rw [abLoopMax, plainLoopMax]
    refine ⟨le_refl v, fun _ => le_refl v, fun hcon => absurd hcon (by omega), fun _ _ => Or.inl rfl⟩
  | cons c cs ih =>
    intro hcih v b bp hvβ
    have hcihc := hcih c (List.mem_cons_self _ _) (max α₀ v) β (by omega) hβ (by omega)
    have hcih' : ∀ c' ∈ cs, ∀ α' β', -100000 ≤ α' → β' ≤ 1000000 → α' < β' →
        ((recab c' α' β').1 ≤ α' → (recp c').1 ≤ (recab c' α' β').1) ∧
        (β' ≤ (recab c' α' β').1 → (recab c' α' β').1 ≤ (recp c').1) ∧
        (α' < (recab c' α' β').1 → (recab c' α' β').1 < β' →
          (recab c' α' β').1 = (recp c').1) :=
      fun c' hc' => hcih c' (List.mem_cons_of_mem _ hc')
    rw [abLoopMax, plainLoopMax]
    set new := (recab c (max α₀ v) β).1 with hnewdef
    set pnew := (recp c).1 with hpnewdef
    set v' := if new > v then new else v with hvPdef
    set b' := if new > v then lastMove c else b with hbPdef
    set vq := if pnew > v then pnew else v with hvqdef
    set bq := if pnew > v then lastMove c else bp with hbqdef
    have hvv' : v ≤ v' := by rw [hvPdef]; split <;> omega
    by_cases hbr : v' ≥ β
    · rw [if_pos hbr]
      have hv'new : v' = new := by
        by_cases hnv : new > v
        · rw [hvPdef, if_pos hnv]
        · exfalso
          rw [hvPdef, if_neg hnv] at hbr
          omega
      have hnp : new ≤ pnew := hcihc.2.1 (by omega)
      refine ⟨hvv', fun hcon => absurd hcon (by omega), ?_, fun _ hcon => absurd hcon (by omega)⟩
      intro _
      exact ⟨c, List.mem_cons_self _ _, by omega⟩
    · rw [if_neg hbr]
      push_neg at hbr
      have hα' : max (max α₀ v) v' = max α₀ v' := by omega
      rw [hα']
      obtain ⟨ih1, ih2, ih3, ih4⟩ := ih hcih' v' b' bq hbr
      have hvq : vq ≤ v' := by
        by_cases hc1 : new ≤ max α₀ v
        · have hpn : pnew ≤ new := hcihc.1 hc1
          rw [hvqdef, hvPdef]
          split <;> split <;> omega
        · push_neg at hc1
          by_cases hc2 : new < β
          · have hpe : new = pnew := hcihc.2.2 hc1 hc2
            rw [hvqdef, hvPdef]
            split <;> split <;> omega
          · exfalso
            push_neg at hc2
            rw [hvPdef] at hbr
            split at hbr <;> omega
      refine ⟨le_trans hvv' ih1, ?_, ?_, ?_⟩
      · intro hA
        exact le_trans (plainLoopMax_mono_init recp cs vq v' bq bq hvq) (ih2 hA)
      · intro hA
        obtain ⟨c', hc', hle⟩ := ih3 hA
        exact ⟨c', List.mem_cons_of_mem _ hc', hle⟩
      · intro hαA hAβ
        rcases ih4 (by omega) hAβ with hAv' | ⟨c', hc', hle⟩
        · by_cases hnv : new > v
          · have hv'new : v' = new := by rw [hvPdef, if_pos hnv]
            by_cases hc1 : new ≤ max α₀ v
            · exfalso
              omega
            · push_neg at hc1
              have hc2 : new < β := by omega
              have hpe : new = pnew := hcihc.2.2 hc1 hc2
              exact Or.inr ⟨c, List.mem_cons_self _ _, by omega⟩
          · have hv'v : v' = v := by rw [hvPdef, if_neg hnv]
            exact Or.inl (by omega)
        · exact Or.inr ⟨c', List.mem_cons_of_mem _ hc', hle⟩

end Sudoku

namespace Sudoku

/-- Fail-soft specification of the minimizing alpha-beta loop, mirror of
`abLoopMax_spec`, with the running beta written as `min β₀ value`. -/
lemma abLoopMin_spec (recab : GTree → Int → Int → Int × Option Move)
    (recp : GTree → Int × Option Move) (β₀ α : Int)
    (hβ₀ : β₀ ≤ 1000000) (hα : -100000 ≤ α) (hαβ : α < β₀) :
    ∀ (cs : List GTree),
      (∀ c ∈ cs, ∀ α' β', -100000 ≤ α' → β' ≤ 1000000 → α' < β' →
        ((recab c α' β').1 ≤ α' → (recp c).1 ≤ (recab c α' β').1) ∧
        (β' ≤ (recab c α' β').1 → (recab c α' β').1 ≤ (recp c).1) ∧
        (α' < (recab c α' β').1 → (recab c α' β').1 < β' →
          (recab c α' β').1 = (recp c).1)) →
      ∀ (v : Int) (b bp : Option Move), α < v →
        (abLoopMin recab cs α (min β₀ v) v b).1 ≤ v ∧
        (α < (abLoopMin recab cs α (min β₀ v) v b).1 →
          (abLoopMin recab cs α (min β₀ v) v b).1 ≤ (plainLoopMin recp cs v bp).1) ∧
        ((abLoopMin recab cs α (min β₀ v) v b).1 ≤ α →
          ∃ c ∈ cs, (recp c).1 ≤ (abLoopMin recab cs α (min β₀ v) v b).1) ∧
        (α < (abLoopMin recab cs α (min β₀ v) v b).1 →
          (abLoopMin recab cs α (min β₀ v) v b).1 < β₀ →
          ((abLoopMin recab cs α (min β₀ v) v b).1 = v ∨
            ∃ c ∈ cs, (recp c).1 ≤ (abLoopMin recab cs α (min β₀ v) v b).1)) := by
  intro cs
  induction cs with
  | nil =>
    intro _ v b bp hαv
    rw [abLoopMin, plainLoopMin]
    refine ⟨le_refl v, fun _ => le_refl v, fun hcon => absurd hcon (by omega), fun _ _ => Or.inl rfl⟩
  | cons c cs ih =>
    intro hcih v b bp hαv
    have hcihc := hcih c (List.mem_cons_self _ _) α (min β₀ v) hα (by omega) (by omega)
    have hcih' : ∀ c' ∈ cs, ∀ α' β', -100000 ≤ α' → β' ≤ 1000000 → α' < β' →
        ((recab c' α' β').1 ≤ α' → (recp c').1 ≤ (recab c' α' β').1) ∧
        (β' ≤ (recab c' α' β').1 → (recab c' α' β').1 ≤ (recp c').1) ∧
        (α' < (recab c' α' β').1 → (recab c' α' β').1 < β' →
          (recab c' α' β').1 = (recp c').1) :=
      fun c' hc' => hcih c' (List.mem_cons_of_mem _ hc')
    rw [abLoopMin, plainLoopMin]
    set new := (recab c α (min β₀ v)).1 with hnewdef
    set pnew := (recp c).1 with hpnewdef
    set v' := if new < v then new else v with hvPdef
    set b' := if new < v then lastMove c else b with hbPdef
    set vq := if pnew < v then pnew else v with hvqdef
    set bq := if pnew < v then lastMove c else bp with hbqdef
    have hvv' : v' ≤ v := by rw [hvPdef]; split <;> omega
    by_cases hbr : v' ≤ α
    · rw [if_pos hbr]
      have hv'new : v' = new := by
        by_cases hnv : new < v
        · rw [hvPdef, if_pos hnv]
        · exfalso
          rw [hvPdef, if_neg hnv] at hbr
          omega
      have hnp : pnew ≤ new := hcihc.1 (by omega)
      refine ⟨hvv', fun hcon => absurd hcon (by omega), ?_, fun hcon => absurd hcon (by omega)⟩
      intro _
      exact ⟨c, List.mem_cons_self _ _, by omega⟩
    · rw [if_neg hbr]
      push_neg at hbr
      have hβ' : min (min β₀ v) v' = min β₀ v' := by omega
      rw [hβ']
      obtain ⟨ih1, ih2, ih3, ih4⟩ := ih hcih' v' b' bq hbr
      have hvq : v' ≤ vq := by
        by_cases hc1 : min β₀ v ≤ new
        · have hpn : new ≤ pnew := hcihc.2.1 hc1
          rw [hvqdef, hvPdef]
          split <;> split <;> omega
        · push_neg at hc1
          by_cases hc2 : α < new
          · have hpe : new = pnew := hcihc.2.2 hc2 hc1
            rw [hvqdef, hvPdef]
            split <;> split <;> omega
          · exfalso
            push_neg at hc2
            rw [hvPdef] at hbr
            split at hbr <;> omega
      refine ⟨le_trans ih1 hvv', ?_, ?_, ?_⟩
      · intro hA
        exact le_trans (ih2 hA) (plainLoopMin_mono_init recp cs v' vq bq bq hvq)
      · intro hA
        obtain ⟨c', hc', hle⟩ := ih3 hA
        exact ⟨c', List.mem_cons_of_mem _ hc', hle⟩
      · intro hαA hAβ
        rcases ih4 hαA (by omega) with hAv' | ⟨c', hc', hle⟩
        · by_cases hnv : new < v
          · have hv'new : v' = new := by rw [hvPdef, if_pos hnv]
            by_cases hc1 : min β₀ v ≤ new
            · exfalso
              omega
            · push_neg at hc1
              have hc2 : α < new := by omega
              have hpe : new = pnew := hcihc.2.2 hc2 hc1
              exact Or.inr ⟨c, List.mem_cons_self _ _, by omega⟩
          · have hv'v : v' = v := by rw [hvPdef, if_neg hnv]
            exact Or.inl (by omega)
        · exact Or.inr ⟨c', List.mem_cons_of_mem _ hc', hle⟩

end Sudoku

namespace Sudoku

/-- Fail-soft trichotomy for `minimax` against the unpruned search: inside
the window the values agree; a value at or below alpha bounds the unpruned
value from above, one at or beyond beta bounds it from below. -/
lemma minimax_trichotomy (eval : GameState → Int) :
    ∀ (d : Nat) (t : GTree) (maxi : Bool) (α β : Int),
      -100000 ≤ α → β ≤ 1000000 → α < β →
      ((minimax eval d t maxi α β).1 ≤ α →
        (minimax_unpruned eval d t maxi).1 ≤ (minimax eval d t maxi α β).1) ∧
      (β ≤ (minimax eval d t maxi α β).1 →
        (minimax eval d t maxi α β).1 ≤ (minimax_unpruned eval d t maxi).1) ∧
      (α < (minimax eval d t maxi α β).1 → (minimax eval d t maxi α β).1 < β →
        (minimax eval d t maxi α β).1 = (minimax_unpruned eval d t maxi).1) := by
  intro d
  induction d with
  | zero =>
    intro t maxi α β _ _ _
    rw [minimax, minimax_unpruned]
    exact ⟨fun _ => le_refl _, fun _ => le_refl _, fun _ _ => rfl⟩
  | succ d ih =>
    intro t maxi α β hα hβ hαβ
    rw [minimax, minimax_unpruned]
    by_cases hbf : board_filled_in t.gs
    · rw [if_pos hbf, if_pos hbf]
      exact ⟨fun _ => le_refl _, fun _ => le_refl _, fun _ _ => rfl⟩
    · rw [if_neg hbf, if_neg hbf]
      cases maxi with
      | true =>
        rw [if_pos rfl, if_pos rfl]
        have hcih : ∀ c ∈ t.children, ∀ α' β', -100000 ≤ α' → β' ≤ 1000000 → α' < β' →
            (((fun c a b => minimax eval d c false a b) c α' β').1 ≤ α' →
              ((fun c => minimax_unpruned eval d c false) c).1 ≤
                ((fun c a b => minimax eval d c false a b) c α' β').1) ∧
            (β' ≤ ((fun c a b => minimax eval d c false a b) c α' β').1 →
              ((fun c a b => minimax eval d c false a b) c α' β').1 ≤
                ((fun c => minimax_unpruned eval d c false) c).1) ∧
            (α' < ((fun c a b => minimax eval d c false a b) c α' β').1 →
              ((fun c a b => minimax eval d c false a b) c α' β').1 < β' →
              ((fun c a b => minimax eval d c false a b) c α' β').1 =
                ((fun c => minimax_unpruned eval d c false) c).1) :=
          fun c _ α' β' h1 h2 h3 => ih c false α' β' h1 h2 h3
        have hspec := abLoopMax_spec (fun c a b => minimax eval d c false a b)
          (fun c => minimax_unpruned eval d c false) α β hα hβ hαβ t.children hcih
          (-100000) none none (by omega)
        rw [max_eq_left (by omega : (-100000 : Int) ≤ α)] at hspec
        obtain ⟨h1, h2, h3, h4⟩ := hspec
        refine ⟨?_, ?_, ?_⟩
        · intro hA
          exact h2 (by omega)
        · intro hA
          obtain ⟨c, hc, hle⟩ := h3 hA
          exact le_trans hle (plainLoopMax_ge_child _ _ _ _ c hc)
        · intro hαA hAβ
          refine le_antisymm ?_ (h2 hAβ)
          rcases h4 hαA hAβ with hAv | ⟨c, hc, hle⟩
          · rw [hAv]
            exact plainLoopMax_ge_init _ _ _ _
          · exact le_trans hle (plainLoopMax_ge_child _ _ _ _ c hc)
      | false =>
        rw [if_neg (by simp), if_neg (by simp)]
        have hcih : ∀ c ∈ t.children, ∀ α' β', -100000 ≤ α' → β' ≤ 1000000 → α' < β' →
            (((fun c a b => minimax eval d c true a b) c α' β').1 ≤ α' →
              ((fun c => minimax_unpruned eval d c true) c).1 ≤
                ((fun c a b => minimax eval d c true a b) c α' β').1) ∧
            (β' ≤ ((fun c a b => minimax eval d c true a b) c α' β').1 →
              ((fun c a b => minimax eval d c true a b) c α' β').1 ≤
                ((fun c => minimax_unpruned eval d c true) c).1) ∧
            (α' < ((fun c a b => minimax eval d c true a b) c α' β').1 →
              ((fun c a b => minimax eval d c true a b) c α' β').1 < β' →
              ((fun c a b => minimax eval d c true a b) c α' β').1 =
                ((fun c => minimax_unpruned eval d c true) c).1) :=
          fun c _ α' β' h1 h2 h3 => ih c true α' β' h1 h2 h3
        have hspec := abLoopMin_spec (fun c a b => minimax eval d c true a b)
          (fun c => minimax_unpruned eval d c true) β α hβ hα hαβ t.children hcih
          1000000 none none (by omega)
        rw [min_eq_left (by omega : β ≤ (1000000 : Int))] at hspec
        obtain ⟨h1, h2, h3, h4⟩ := hspec
        refine ⟨?_, ?_, ?_⟩
        · intro hA
          obtain ⟨c, hc, hle⟩ := h3 hA
          exact le_trans (plainLoopMin_le_child _ _ _ _ c hc) hle
        · intro hA
          exact h2 (by omega)
        · intro hαA hAβ
          refine le_antisymm (h2 hαA) ?_
          rcases h4 hαA hAβ with hAv | ⟨c, hc, hle⟩
          · rw [hAv]
            exact plainLoopMin_le_init _ _ _ _
          · exact le_trans (plainLoopMin_le_child _ _ _ _ c hc) hle

end Sudoku

namespace Sudoku

/-- Claim C7: for every search tree node, every depth, and the full initial
window (alpha = -100000, beta = 100000), the alpha-beta `minimax` of
team27_A2/team27_A3 returns the same value as unpruned minimax to the same
depth over the same children, provided the evaluation function stays
strictly inside the window (as the spec's score-difference evaluation
does). -/
theorem minimax_alphabeta_matches_unpruned (eval : GameState → Int)
    (heval : ∀ s : GameState, -100000 < eval s ∧ eval s < 100000)
    (d : Nat) (t : GTree) (maxi : Bool) :
    (minimax eval d t maxi (-100000) 100000).1 =
      (minimax_unpruned eval d t maxi).1 := by
  obtain ⟨h1, h2, h3⟩ :=
    minimax_trichotomy eval d t maxi (-100000) 100000 (le_refl _) (by omega) (by omega)
  obtain ⟨hb1, hb2, hb3⟩ := minimax_bounds_high eval heval d t maxi (-100000) 100000
  obtain ⟨hu1, hu2⟩ := minimax_unpruned_bounds eval heval d t maxi
  by_cases hlo : (minimax eval d t maxi (-100000) 100000).1 ≤ -100000
  · have hp := h1 hlo
    omega
  · by_cases hhi : (100000 : Int) ≤ (minimax eval d t maxi (-100000) 100000).1
    · have hp := h2 hhi
      rcases hb3 with h | h <;> omega
    · exact h3 (by omega) (by omega)

/-- The score-difference evaluation of the spec, clamped to the open window
`(-100000, 100000)` (true A3 evaluations are tiny score differences plus a
sub-unit float bonus, so they always lie far inside the window). -/
def c7eval : GameState → Int :=
  fun gs => max (-99999) (min 99999 (gs.scores.1 - gs.scores.2))

lemma c7eval_bounds : ∀ s : GameState, -100000 < c7eval s ∧ c7eval s < 100000 := by
  intro s
  simp only [c7eval]
  omega

def c7Board : Board := ⟨2, 2, fun _ _ => 0⟩

/-- A depth-1 maximizing tree over an empty 4x4 board: two children whose
states carry scores (3,0) and (5,0). -/
def c7Tree : GTree :=
  GTree.mk ⟨c7Board, [], (0, 0), []⟩
    [GTree.mk ⟨c7Board, [⟨0, 0, 1⟩], (3, 0), []⟩ [],
     GTree.mk ⟨c7Board, [⟨0, 0, 2⟩], (5, 0), []⟩ []]

/-- Witness for `minimax_alphabeta_matches_unpruned`: on the concrete
depth-1 tree the pruned and unpruned values agree, both being 5. -/
theorem minimax_alphabeta_matches_unpruned_witness :
    (minimax c7eval 1 c7Tree true (-100000) 100000).1 =
      (minimax_unpruned c7eval 1 c7Tree true).1 ∧
    (minimax_unpruned c7eval 1 c7Tree true).1 = 5 :=
  ⟨minimax_alphabeta_matches_unpruned c7eval c7eval_bounds 1 c7Tree true, by decide⟩

end Sudoku
